import Mathlib

/-!
# Fixel field tessellation, shader synthesis and batch rendering (MRtrix3, mrview fixel tool)

A shallow embedding of `src/gui/mrview/tool/fixel/fixel_image.cpp`, followed by
one of the command `run ()` of `cmd/mrcat.cpp`.

Conventions of the embedding.

* A `float` is a `FloatVal`: NaN, an infinity or a rational number, with the
  comparison and the arithmetic of floats on them.  Rounding is outside the
  model.
* `Point<float>` is `Point`; the default-constructed `Point<float>()` that
  brackets the vertex buffer is the constructor `Point.invalid`.
* `std::vector` is `List`.  `operator[]` is a lookup that can fail, so every
  function that indexes a vector returns an `Option`; `none` is a fault.
* The member containers are declared in `fixel_image.h`, which is not part of
  the sources at hand; their element types are unbounded naturals here.
* OpenGL is a command trace (`GLCmd`) together with an interpreter on the
  pipeline state (`GLState`).
* In `mrcat` the variables of type `int`, `size_t` and `ssize_t` that add up
  image sizes wrap at their width (`to_int`, `to_size_t`, `to_ssize_t`); the
  numbers of axes stay far below these widths and are plain integers.
-/

namespace MRtrix

/-! ## Data model -/

/-- A `float`: NaN, an infinity or a number.  It is the type of the fixel
values, of the coordinates of a point and of `value_min` and `value_max`. -/
inductive FloatVal where
  | nan : FloatVal
  | negInf : FloatVal
  | fin (q : ℚ) : FloatVal
  | posInf : FloatVal
deriving DecidableEq, Repr

namespace FloatVal

/-- The comparison `a < b` of floats: false as soon as one of them is NaN. -/
def lt : FloatVal → FloatVal → Bool
  | nan, _ => false
  | _, nan => false
  | negInf, negInf => false
  | negInf, _ => true
  | fin _, negInf => false
  | fin a, fin b => decide (a < b)
  | fin _, posInf => true
  | posInf, _ => false

/-- Unary minus on floats. -/
def neg : FloatVal → FloatVal
  | nan => nan
  | negInf => posInf
  | fin a => fin (-a)
  | posInf => negInf

/-- The product of two floats: NaN propagates, and zero times an infinity is
NaN. -/
def mul : FloatVal → FloatVal → FloatVal
  | nan, _ => nan
  | _, nan => nan
  | fin a, fin b => fin (a * b)
  | fin a, posInf => if a = 0 then nan else if 0 < a then posInf else negInf
  | fin a, negInf => if a = 0 then nan else if 0 < a then negInf else posInf
  | posInf, fin b => if b = 0 then nan else if 0 < b then posInf else negInf
  | negInf, fin b => if b = 0 then nan else if 0 < b then negInf else posInf
  | posInf, posInf => posInf
  | posInf, negInf => negInf
  | negInf, posInf => negInf
  | negInf, negInf => posInf

end FloatVal

/-- The type `Point<float>`: the default-constructed point, or three coordinates. -/
inductive Point where
  | invalid : Point
  | mk (x y z : FloatVal) : Point
deriving DecidableEq, Repr

namespace Point

/-- The product `Point<float> * float` of `buffer.push_back (dir * value)`. -/
def scale : Point → FloatVal → Point
  | invalid, _ => invalid
  | mk x y z, s => mk (x.mul s) (y.mul s) (z.mul s)

/-- Unary minus on a point, the GLSL `-pos`. -/
def neg : Point → Point
  | invalid => invalid
  | mk x y z => mk x.neg y.neg z.neg

end Point

/-- One fixel: a direction and a scalar value. -/
structure FixelElement where
  dir : Point
  value : FloatVal
deriving DecidableEq, Repr

/-- The position of the voxel accessor `fixel_vox` along the three spatial axes. -/
structure Voxel where
  x : Nat
  y : Nat
  z : Nat
deriving DecidableEq, Repr

/-- The coordinate `fixel_vox[dim]`. -/
def Voxel.get (v : Voxel) : Nat → Nat
  | 0 => v.x
  | 1 => v.y
  | _ => v.z

/-- The nesting of the three loops of `MR::Image::LoopInOrder`, named innermost
axis first; the loop follows the strides of the image. -/
inductive AxisOrder where
  | xyz | xzy | yxz | yzx | zxy | zyx
deriving DecidableEq, Repr

/-- The fixel volume behind `fixel_vox`: its dimensions, its stride order, the
list of fixels of every voxel (`fixel_vox.value()`) and the voxel-to-scanner
transform of its header (`header_transform.voxel2scanner`). -/
structure FixelVolume where
  dim : Nat → Nat
  order : AxisOrder
  value : Voxel → List FixelElement
  voxel2scanner : Voxel → Point

/-- Modelled from the spec: `MR::Image::LoopInOrder`, which is not part of the
sources at hand.  It visits every voxel of the volume exactly once, as three
nested loops over the axes in stride order. -/
def loopInOrder (o : AxisOrder) (d : Nat → Nat) : List Voxel :=
  match o with
  | .xyz => (List.range (d 2)).flatMap fun z => (List.range (d 1)).flatMap fun y =>
      (List.range (d 0)).map fun x => ⟨x, y, z⟩
  | .xzy => (List.range (d 1)).flatMap fun y => (List.range (d 2)).flatMap fun z =>
      (List.range (d 0)).map fun x => ⟨x, y, z⟩
  | .yxz => (List.range (d 2)).flatMap fun z => (List.range (d 0)).flatMap fun x =>
      (List.range (d 1)).map fun y => ⟨x, y, z⟩
  | .yzx => (List.range (d 0)).flatMap fun x => (List.range (d 2)).flatMap fun z =>
      (List.range (d 1)).map fun y => ⟨x, y, z⟩
  | .zxy => (List.range (d 1)).flatMap fun y => (List.range (d 0)).flatMap fun x =>
      (List.range (d 2)).map fun z => ⟨x, y, z⟩
  | .zyx => (List.range (d 0)).flatMap fun x => (List.range (d 1)).flatMap fun y =>
      (List.range (d 2)).map fun z => ⟨x, y, z⟩

/-- One `gl::VertexAttribPointer (index, size, gl::FLOAT, gl::FALSE_, stride, pointer)`:
the component count, the stride and the byte offset into the bound buffer. -/
structure VertexAttrib where
  size : Nat
  stride : Nat
  offset : Nat
deriving DecidableEq, Repr

/-- The value of `sizeof(float)`. -/
def sizeof_float : Nat := 4

/-- The members of `FixelImage` that `load_image` writes, with the contents of
the GPU vertex buffer (`buffer`) and the layout of the vertex array object
(`vertex_attribs`, by attribute location). -/
structure FixelImage where
  slice_fixel_indices : List (List (List Nat))
  slice_fixel_sizes : List (List (List Nat))
  slice_fixel_counts : List (List Nat)
  value_min : FloatVal
  value_max : FloatVal
  windowing : FloatVal × FloatVal
  lessthan : FloatVal
  greaterthan : FloatVal
  buffer : List Point
  vertex_attribs : List VertexAttrib
deriving DecidableEq, Repr

/-! ## `FixelImage::load_image` -/

/-- The call `v.resize (n, x)` of `std::vector`. -/
def resize {α : Type} (v : List α) (n : Nat) (x : α) : List α :=
  v.take n ++ List.replicate (n - v.length) x

/-- The update `m[i] = f (m[i])`; it fails when `i` is out of range. -/
def modifyAt {α : Type} (m : List α) (i : Nat) (f : α → α) : Option (List α) :=
  match m[i]? with
  | none => none
  | some c => some (m.set i (f c))

/-- The update `m[i][j] = f (m[i][j])`; it fails when an index is out of range. -/
def modifyAt2 {α : Type} (m : List (List α)) (i j : Nat) (f : α → α) : Option (List (List α)) :=
  match m[i]? with
  | none => none
  | some row =>
    match modifyAt row j f with
    | none => none
    | some row1 => some (m.set i row1)

/-- The first loop of `load_image`, for one `dim`: the three `resize` calls. -/
def resize_dim (vol : FixelVolume) (img : FixelImage) (dim : Nat) : Option FixelImage :=
  match modifyAt img.slice_fixel_indices dim (fun v => resize v (vol.dim dim) []),
        modifyAt img.slice_fixel_sizes dim (fun v => resize v (vol.dim dim) []),
        modifyAt img.slice_fixel_counts dim (fun v => resize v (vol.dim dim) 0) with
  | some i, some s, some c =>
    some { img with slice_fixel_indices := i, slice_fixel_sizes := s, slice_fixel_counts := c }
  | _, _, _ => none

/-- The innermost loop body of `load_image`, for one `dim`: register the draw
range starting at `off` in the bucket of the voxel's slice along `dim`. -/
def register_dim (off : Nat) (v : Voxel) (img : FixelImage) (dim : Nat) : Option FixelImage :=
  match modifyAt2 img.slice_fixel_indices dim (v.get dim) (fun l => l ++ [off]),
        modifyAt2 img.slice_fixel_sizes dim (v.get dim) (fun l => l ++ [2]),
        modifyAt2 img.slice_fixel_counts dim (v.get dim) (fun c => c + 1) with
  | some i, some s, some c =>
    some { img with slice_fixel_indices := i, slice_fixel_sizes := s, slice_fixel_counts := c }
  | _, _, _ => none

/-- The body of the loop over `f` in `load_image`, for the fixel `e` of voxel `v`. -/
def load_fixel (vol : FixelVolume) (v : Voxel) (img : FixelImage) (e : FixelElement) :
    Option FixelImage :=
  let img1 := if FloatVal.lt img.value_max e.value then
    { img with value_max := e.value } else img
  let img2 := if FloatVal.lt e.value img1.value_min then
    { img1 with value_min := e.value } else img1
  match [0, 1, 2].foldlM (register_dim (img2.buffer.length - 1) v) img2 with
  | none => none
  | some img3 =>
    some { img3 with buffer := (img3.buffer ++ [vol.voxel2scanner v]) ++ [e.dir.scale e.value] }

/-- The body of the voxel loop of `load_image`: all fixels of voxel `v`, in order. -/
def load_voxel (vol : FixelVolume) (img : FixelImage) (v : Voxel) : Option FixelImage :=
  (vol.value v).foldlM (load_fixel vol v) img

/-- The three `gl::VertexAttribPointer` calls at the end of `load_image`, by
attribute location: `pos` at 0, `prev` at 1, `next` at 2. -/
def attrib_layout : List VertexAttrib :=
  [⟨3, 0, 3 * sizeof_float⟩, ⟨3, 0, 0⟩, ⟨3, 0, 6 * sizeof_float⟩]

/-- The function `FixelImage::load_image`. -/
def load_image (vol : FixelVolume) (img : FixelImage) : Option FixelImage :=
  match [0, 1, 2].foldlM (resize_dim vol) img with
  | none => none
  | some img1 =>
    let img2 := { img1 with buffer := [Point.invalid] }
    match (loopInOrder vol.order vol.dim).foldlM (load_voxel vol) img2 with
    | none => none
    | some img3 =>
      some { img3 with
        buffer := img3.buffer ++ [Point.invalid]
        windowing := (img3.value_min, img3.value_max)
        greaterthan := img3.value_max
        lessthan := img3.value_min
        vertex_attribs := attrib_layout }

/-- The members as the initialiser list and body of the constructor
`FixelImage::FixelImage` leave them just before it calls `load_image`. -/
def constructed : FixelImage where
  slice_fixel_indices := List.replicate 3 []
  slice_fixel_sizes := List.replicate 3 []
  slice_fixel_counts := List.replicate 3 []
  value_min := .posInf
  value_max := .negInf
  windowing := (.fin 0, .fin 0)
  lessthan := .fin 0
  greaterthan := .fin 0
  buffer := []
  vertex_attribs := []

/-- The constructor `FixelImage::FixelImage`: initialise, then `load_image`. -/
def construct (vol : FixelVolume) : Option FixelImage :=
  load_image vol constructed

/-! ## Specification of the tessellation -/

/-- The list `[f 0, ..., f (n-1)]`. -/
def table {α : Type} (n : Nat) (f : Nat → α) : List α := (List.range n).map f

/-- The fixels of the volume with their voxels, in the order in which `load_image` visits them. -/
def fixels (vol : FixelVolume) : List (Voxel × FixelElement) :=
  (loopInOrder vol.order vol.dim).flatMap fun v => (vol.value v).map fun e => (v, e)

/-- The start offsets `2 * k` of the fixels, numbered `k = 0, 1, ...` in list order, whose
voxel has coordinate `s` along axis `a`. -/
def offsetsAt (a s : Nat) (es : List (Voxel × FixelElement)) : List Nat :=
  (es.enum.filter fun p => decide (p.2.1.get a = s)).map fun p => 2 * p.1

/-- The number of fixels whose voxel has coordinate `s` along axis `a`. -/
def countAt (a s : Nat) (es : List (Voxel × FixelElement)) : Nat :=
  es.countP fun p => decide (p.1.get a = s)

/-- The running maximum that the loop keeps in `value_max`, started at `-infinity`. -/
def runningMax (es : List (Voxel × FixelElement)) : FloatVal :=
  es.foldl (fun m p => if FloatVal.lt m p.2.value then p.2.value else m) .negInf

/-- The running minimum that the loop keeps in `value_min`, started at `+infinity`. -/
def runningMin (es : List (Voxel × FixelElement)) : FloatVal :=
  es.foldl (fun m p => if FloatVal.lt p.2.value m then p.2.value else m) .posInf

/-- The two buffer entries of every fixel of `es`, in order: scanner position, then
direction times value. -/
def segments (vol : FixelVolume) (es : List (Voxel × FixelElement)) : List Point :=
  es.flatMap fun p => [vol.voxel2scanner p.1, p.2.dir.scale p.2.value]

/-- The state of the loop of `load_image` once the fixels `es` have been visited. -/
def tessellation (vol : FixelVolume) (es : List (Voxel × FixelElement)) : FixelImage :=
  { constructed with
    slice_fixel_indices := table 3 fun a => table (vol.dim a) fun s => offsetsAt a s es
    slice_fixel_sizes := table 3 fun a => table (vol.dim a) fun s =>
      List.replicate (countAt a s es) 2
    slice_fixel_counts := table 3 fun a => table (vol.dim a) fun s => countAt a s es
    value_min := runningMin es
    value_max := runningMax es
    buffer := Point.invalid :: segments vol es }

/-- The object as `load_image` leaves it when called from the constructor. -/
def loaded (vol : FixelVolume) : FixelImage :=
  let t := tessellation vol (fixels vol)
  { t with
    buffer := t.buffer ++ [Point.invalid]
    windowing := (t.value_min, t.value_max)
    greaterthan := t.value_max
    lessthan := t.value_min
    vertex_attribs := attrib_layout }

/-- The total number of fixels of the volume, summed over all its voxels. -/
def totalElements (vol : FixelVolume) : Nat :=
  ∑ x in Finset.range (vol.dim 0), ∑ y in Finset.range (vol.dim 1),
    ∑ z in Finset.range (vol.dim 2), (vol.value ⟨x, y, z⟩).length

/-- The number of fixels in the voxels of the volume whose coordinate along
axis `a` is `s`. -/
def elementsInSlice (vol : FixelVolume) (a s : Nat) : Nat :=
  ∑ x in Finset.range (vol.dim 0), ∑ y in Finset.range (vol.dim 1),
    ∑ z in Finset.range (vol.dim 2),
      if (Voxel.mk x y z).get a = s then (vol.value ⟨x, y, z⟩).length else 0

/-- The read `m[a][s]` of a vector of vectors. -/
def bucket_at {α : Type} (m : List (List α)) (a s : Nat) : Option α :=
  match m[a]? with
  | none => none
  | some row => row[s]?

/-- The volume of shape 2x2x2 with one fixel in voxel (1,0,1) and two fixels in
voxel (0,1,0), for a given stride order. -/
def scenarioVolume (o : AxisOrder) : FixelVolume where
  dim := fun _ => 2
  order := o
  value := fun v =>
    if v = ⟨1, 0, 1⟩ then [⟨.mk (.fin 1) (.fin 0) (.fin 0), .fin 3⟩]
    else if v = ⟨0, 1, 0⟩ then
      [⟨.mk (.fin 0) (.fin 1) (.fin 0), .fin 2⟩, ⟨.mk (.fin 0) (.fin 0) (.fin 1), .fin (-5)⟩]
    else []
  voxel2scanner := fun v => .mk (.fin v.x) (.fin v.y) (.fin v.z)

/-- The voxel `v` lies inside the volume. -/
def FixelVolume.contains (vol : FixelVolume) (v : Voxel) : Prop :=
  ∀ a, a < 3 → v.get a < vol.dim a

/-- The order `a <= b` of the floats that are not NaN. -/
def FloatVal.le : FloatVal → FloatVal → Bool
  | .nan, _ => false
  | _, .nan => false
  | .negInf, _ => true
  | _, .posInf => true
  | .fin a, .fin b => decide (a ≤ b)
  | .fin _, .negInf => false
  | .posInf, .negInf => false
  | .posInf, .fin _ => false

/-- The volume of a single voxel that holds one fixel, whose value is NaN. -/
def nanVolume : FixelVolume where
  dim := fun _ => 1
  order := .xyz
  value := fun _ => [⟨.mk (.fin 1) (.fin 0) (.fin 0), .nan⟩]
  voxel2scanner := fun v => .mk (.fin v.x) (.fin v.y) (.fin v.z)

/-! ## Collaborators of the shader and of the renderer -/

/-- The rendering mode `FixelImage::color_type`. -/
inductive ColourType where
  | Direction | Colour | Value
deriving DecidableEq, Repr

/-- One entry of the table `ColourMap::maps`: whether the map is special, and
the text of its mapping formula. -/
structure ColourMapEntry where
  special : Bool
  mapping : String
deriving DecidableEq, Repr

/-- Modelled from the spec: the flags of the base class `Displayable` that the
shader depends on, namely lower clipping, upper clipping and scale inversion
(`use_discard_lower ()`, `use_discard_upper ()`, `scale_inverted ()`). -/
structure DisplayFlags where
  discard_lower : Bool
  discard_upper : Bool
  scale_inverted : Bool
deriving DecidableEq, Repr

/-- Modelled from the spec: the state of the base class `Displayable` read by
the shader: its flags and the index of the active colour map. -/
structure Displayable where
  flags : DisplayFlags
  colourmap : Nat
deriving DecidableEq, Repr

/-- The members of the tool `Fixel` that the image reads through `fixel_tool`. -/
structure Fixel where
  do_crop_to_slice : Bool
  line_opacity : ℚ
  line_thickness : ℚ
deriving DecidableEq, Repr

/-- The members of `FixelImage` that `render` and the shader read and that
`load_image` does not write, with the base class and the owning tool. -/
structure FixelSettings where
  base : Displayable
  fixel_tool : Fixel
  color_type : ColourType
  colour : ℚ × ℚ × ℚ
  line_length : ℚ
  line_length_multiplier : ℚ
  scale_line_length_by_value : Bool
deriving DecidableEq, Repr

/-! ## `FixelImage::Shader` -/

/-- The members of `FixelImage::Shader`; `base` holds the two members of
`Displayable::Shader`. -/
structure Shader where
  base : Displayable
  do_crop_to_slice : Bool
  color_type : ColourType
deriving DecidableEq, Repr

/-- Modelled from the spec: `Displayable::Shader::need_update`, which is not
part of the sources at hand.  The cached program is stale when a flag or the
colour map of the object differs from the cached one. -/
def Displayable.Shader.need_update (sh : Displayable) (object : Displayable) : Bool :=
  sh.flags ≠ object.flags || sh.colourmap ≠ object.colourmap

/-- Modelled from the spec: `Displayable::Shader::update`, which is not part of
the sources at hand.  It caches the flags and the colour map of the object. -/
def Displayable.Shader.update (_sh : Displayable) (object : Displayable) : Displayable :=
  { flags := object.flags, colourmap := object.colourmap }

/-- The function `FixelImage::Shader::need_update`. -/
def Shader.need_update (sh : Shader) (fixel : FixelSettings) : Bool :=
  if sh.color_type ≠ fixel.color_type then true
  else Displayable.Shader.need_update sh.base fixel.base

/-- The function `FixelImage::Shader::update`. -/
def Shader.update (sh : Shader) (fixel : FixelSettings) : Shader :=
  { do_crop_to_slice := fixel.fixel_tool.do_crop_to_slice
    color_type := fixel.color_type
    base := Displayable.Shader.update sh.base fixel.base }

/-- The function `FixelImage::Shader::vertex_shader_source`; `maps` is the
table `ColourMap::maps`, and the lookup of the active map in it can fail. -/
def Shader.vertex_shader_source (sh : Shader) (maps : List ColourMapEntry)
    (fixel : FixelSettings) : Option String :=
  let source :=
    "layout (location = 0) in vec3 pos;\n" ++
    "layout (location = 1) in vec3 prev;\n" ++
    "layout (location = 2) in vec3 next;\n" ++
    "uniform mat4 MVP;\n" ++
    "uniform float line_length;\n" ++
    "uniform float max_value;\n" ++
    "uniform bool scale_line_length_by_value;\n" ++
    "flat out float value_out;\n" ++
    "out vec3 fragmentColour;\n"
  let source :=
    match sh.color_type with
    | .Direction => source
    | .Colour => source ++ "uniform vec3 const_colour;\n"
    | .Value => source ++ "uniform float offset, scale;\n"
  let source := source ++
    ("void main() \x7b\n" ++
    "  vec3 centre = pos;\n" ++
    "  vec3 dir = next;\n" ++
    "  if ((gl_VertexID % 2) > 0) \x7b\n" ++
    "    centre = prev;\n" ++
    "    dir = -pos;\n" ++
    "  \x7d\n" ++
    "  value_out = length (dir);\n" ++
    "  if (scale_line_length_by_value)\n" ++
    "    gl_Position =  MVP * vec4 (centre + line_length * dir,1);\n" ++
    "  else" ++
    "    gl_Position =  MVP * vec4 (centre + line_length * normalize (dir),1);\n")
  let coloured : Option String :=
    match sh.color_type with
    | .Colour => some (source ++ "  fragmentColour = const_colour;\n")
    | .Value =>
      match maps[sh.base.colourmap]? with
      | none => none
      | some map =>
        let source :=
          if !map.special then
            let source := source ++ "  float amplitude = clamp ("
            let source := if fixel.base.flags.scale_inverted then source ++ "1.0 -" else source
            source ++ " scale * (value_out - offset), 0.0, 1.0);\n"
          else source
        some (source ++ ("  vec3 color;\n" ++ map.mapping ++ "  fragmentColour = color;\n"))
    | .Direction => some (source ++ "  fragmentColour = normalize (abs (dir));\n")
  match coloured with
  | none => none
  | some source => some (source ++ "\x7d\n")

/-- The function `FixelImage::Shader::fragment_shader_source`. -/
def Shader.fragment_shader_source (fixel : FixelSettings) : String :=
  let source :=
    "in float include; \n" ++
    "out vec3 color;\n" ++
    "flat in float value_out;\n" ++
    "in vec3 fragmentColour;\n"
  let source := if fixel.base.flags.discard_lower then source ++ "uniform float lower;\n" else source
  let source := if fixel.base.flags.discard_upper then source ++ "uniform float upper;\n" else source
  let source := source ++ "void main()\x7b\n"
  let source :=
    if fixel.base.flags.discard_lower then source ++ "  if (value_out < lower) discard;\n"
    else source
  let source :=
    if fixel.base.flags.discard_upper then source ++ "  if (value_out > upper) discard;\n"
    else source
  let source := source ++ "  color = fragmentColour;\n"
  let source := source ++ "\x7d\n"
  source

/-- The body of `main` in the vertex program that `vertex_shader_source` emits,
up to the parity select: the pair `(centre, dir)` for the vertex `gl_VertexID`
with the attributes `pos`, `prev` and `next`. -/
def vertex_main (gl_VertexID : Nat) (pos prev next : Point) : Point × Point :=
  if gl_VertexID % 2 > 0 then (prev, pos.neg) else (pos, next)

/-- The read of one vertex attribute for the vertex `v` from the bound buffer:
three floats at byte `offset + v * stride`, a stride of zero meaning tightly
packed.  The buffer holds one `Point<float>`, three floats, per entry. -/
def fetch_attrib (buf : List Point) (a : VertexAttrib) (v : Nat) : Option Point :=
  let stride := if a.stride = 0 then a.size * sizeof_float else a.stride
  let addr := a.offset + v * stride
  if addr % (3 * sizeof_float) = 0 then buf[addr / (3 * sizeof_float)]? else none

/-- The vertex program run on the vertex `v` of the loaded image: the attributes
at locations 0, 1 and 2 are `pos`, `prev` and `next`. -/
def run_vertex (img : FixelImage) (v : Nat) : Option (Point × Point) :=
  match img.vertex_attribs with
  | [a0, a1, a2] =>
    match fetch_attrib img.buffer a0 v, fetch_attrib img.buffer a1 v,
        fetch_attrib img.buffer a2 v with
    | some pos, some prev, some next => some (vertex_main v pos prev next)
    | _, _, _ => none
  | _ => none

/-! ## OpenGL -/

/-- The capabilities that `render` toggles. -/
inductive Cap where
  | BLEND | DEPTH_TEST
deriving DecidableEq, Repr

/-- The blend equations of OpenGL. -/
inductive BlendEq where
  | FUNC_ADD | FUNC_SUBTRACT | FUNC_REVERSE_SUBTRACT | MIN | MAX
deriving DecidableEq, Repr

/-- Blend factors of OpenGL. -/
inductive BlendFactor where
  | ZERO | ONE | SRC_ALPHA | ONE_MINUS_SRC_ALPHA | CONSTANT_ALPHA | ONE_MINUS_CONSTANT_ALPHA
deriving DecidableEq, Repr

/-- The calls that `render` issues, in the order of the source. -/
inductive GLCmd where
  | start : GLCmd
  | projection_set : GLCmd
  | Uniform1f (name : String) (v : FloatVal) : GLCmd
  | Uniform3fv (name : String) (v : ℚ × ℚ × ℚ) : GLCmd
  | Enable (cap : Cap) : GLCmd
  | Disable (cap : Cap) : GLCmd
  | DepthMask (flag : Bool) : GLCmd
  | BlendEquation (mode : BlendEq) : GLCmd
  | BlendFunc (sfactor dfactor : BlendFactor) : GLCmd
  | BlendColor (r g b a : ℚ) : GLCmd
  | LineWidth (width : ℚ) : GLCmd
  | BindVertexArray (layout : List VertexAttrib) : GLCmd
  | MultiDrawArrays (first count : List Nat) (drawcount : Nat) : GLCmd
  | stop : GLCmd
deriving DecidableEq, Repr

/-- The pipeline state that `render` touches. -/
structure GLState where
  blend : Bool
  depth_test : Bool
  depth_mask : Bool
  blend_equation : BlendEq
  blend_func : BlendFactor × BlendFactor
  blend_color : ℚ × ℚ × ℚ × ℚ
  line_width : ℚ
  vertex_array : List VertexAttrib
deriving DecidableEq, Repr

/-- The effect on the pipeline state of the calls into code that is not part
of the sources at hand: `Displayable::start`, `Projection::set` and
`Displayable::stop`.  They are parameters of the interpreter. -/
structure Collaborators where
  start : GLState → GLState
  projection_set : GLState → GLState
  stop : GLState → GLState

/-- The effect of one call on the pipeline state.  Uniforms belong to the
program object, and a draw call leaves the state as it is. -/
def exec (c : Collaborators) (s : GLState) : GLCmd → GLState
  | .start => c.start s
  | .projection_set => c.projection_set s
  | .Uniform1f _ _ => s
  | .Uniform3fv _ _ => s
  | .Enable .BLEND => { s with blend := true }
  | .Enable .DEPTH_TEST => { s with depth_test := true }
  | .Disable .BLEND => { s with blend := false }
  | .Disable .DEPTH_TEST => { s with depth_test := false }
  | .DepthMask flag => { s with depth_mask := flag }
  | .BlendEquation mode => { s with blend_equation := mode }
  | .BlendFunc sfactor dfactor => { s with blend_func := (sfactor, dfactor) }
  | .BlendColor r g b a => { s with blend_color := (r, g, b, a) }
  | .LineWidth width => { s with line_width := width }
  | .BindVertexArray layout => { s with vertex_array := layout }
  | .MultiDrawArrays _ _ _ => s
  | .stop => c.stop s

/-- The steps `f a`, for the entries `a` of a list in order, with their results
collected; a step that faults makes the whole loop fault. -/
def collect {α β : Type} (f : α → Option β) : List α → Option (List β)
  | [] => some []
  | a :: l =>
    match f a, collect f l with
    | some b, some bs => some (b :: bs)
    | _, _ => none

/-- The pipeline state after a sequence of calls. -/
def run (c : Collaborators) (s : GLState) (cmds : List GLCmd) : GLState :=
  cmds.foldl (exec c) s

/-- The draw ranges `(first[i], count[i])`, `i < drawcount`, of one
`gl::MultiDrawArrays`; reading past the end of an array is a fault. -/
def draw_ranges (first count : List Nat) (drawcount : Nat) : Option (List (Nat × Nat)) :=
  collect (fun i =>
    match first[i]?, count[i]? with
    | some f, some n => some (f, n)
    | _, _ => none) (List.range drawcount)

/-- The draw ranges of all the draw calls of a trace, in order. -/
def drawn : List GLCmd → Option (List (Nat × Nat))
  | [] => some []
  | .MultiDrawArrays first count drawcount :: cmds =>
    match draw_ranges first count drawcount, drawn cmds with
    | some r, some rs => some (r ++ rs)
    | _, _ => none
  | _ :: cmds => drawn cmds

/-! ## `FixelImage::render` -/

/-- The read `m[i]` with an index of type `int`. -/
def at_int {α : Type} (m : List α) (i : Int) : Option α :=
  if i < 0 then none else m[i.toNat]?

/-- The expression `&v[0]`: the array that starts at element 0 of `v`.  Taking
element 0 of an empty vector is a fault. -/
def addr_of_first {α : Type} (v : List α) : Option (List α) :=
  match v with
  | [] => none
  | _ :: _ => some v

/-- The call `gl::MultiDrawArrays (gl::LINES, &slice_fixel_indices[axis][slice][0],
&slice_fixel_sizes[axis][slice][0], slice_fixel_counts[axis][slice])`. -/
def draw_bucket (img : FixelImage) (axis slice : Int) : Option GLCmd :=
  match at_int img.slice_fixel_indices axis, at_int img.slice_fixel_sizes axis,
      at_int img.slice_fixel_counts axis with
  | some indices, some sizes, some counts =>
    match at_int indices slice, at_int sizes slice, at_int counts slice with
    | some first, some count, some drawcount =>
      match addr_of_first first, addr_of_first count with
      | some first, some count => some (.MultiDrawArrays first count drawcount)
      | _, _ => none
    | _, _, _ => none
  | _, _, _ => none

/-- The draw calls of `render`: one per slice of axis 0 when the tool does not
crop to the slice, one for the requested bucket when it does. -/
def draw_calls (img : FixelImage) (fixel : FixelSettings) (axis slice : Int) :
    Option (List GLCmd) :=
  if !fixel.fixel_tool.do_crop_to_slice then
    match img.slice_fixel_indices[0]? with
    | none => none
    | some indices => collect (fun x : Nat => draw_bucket img 0 x) (List.range indices.length)
  else
    match draw_bucket img axis slice with
    | none => none
    | some call => some [call]

/-- The calls of `render` before its draw calls: the shader is started, the
uniforms are set, then the blend and depth state, the line width and the
vertex array. -/
def render_setup (img : FixelImage) (fixel : FixelSettings) : List GLCmd :=
  [.start, .projection_set,
    .Uniform1f "line_length" (.fin (fixel.line_length * fixel.line_length_multiplier)),
    .Uniform1f "max_value" img.value_max,
    .Uniform1f "scale_line_length_by_value"
      (.fin (if fixel.scale_line_length_by_value then 1 else 0))]
  ++ (if fixel.base.flags.discard_lower then [.Uniform1f "lower" img.lessthan] else [])
  ++ (if fixel.base.flags.discard_upper then [.Uniform1f "upper" img.greaterthan] else [])
  ++ (if fixel.color_type = .Colour then [.Uniform3fv "const_colour" fixel.colour] else [])
  ++ (if fixel.fixel_tool.line_opacity < 1 then
        [.Enable .BLEND, .Disable .DEPTH_TEST, .DepthMask false, .BlendEquation .FUNC_ADD,
          .BlendFunc .CONSTANT_ALPHA .ONE, .BlendColor 1 1 1 fixel.fixel_tool.line_opacity]
      else [.Disable .BLEND, .Enable .DEPTH_TEST, .DepthMask true])
  ++ [.LineWidth fixel.fixel_tool.line_thickness, .BindVertexArray img.vertex_attribs]

/-- The calls of `render` after its draw calls: the state is restored when the
lines are translucent, and the shader is stopped. -/
def render_finish (fixel : FixelSettings) : List GLCmd :=
  (if fixel.fixel_tool.line_opacity < 1 then
      [.Disable .BLEND, .Enable .DEPTH_TEST, .DepthMask true]
    else [])
  ++ [.stop]

/-- The function `FixelImage::render`: the trace of its calls, or `none` when
a lookup faults. -/
def render (img : FixelImage) (fixel : FixelSettings) (axis slice : Int) :
    Option (List GLCmd) :=
  match draw_calls img fixel axis slice with
  | none => none
  | some calls => some (render_setup img fixel ++ calls ++ render_finish fixel)

/-- The settings that the constructor `FixelImage::FixelImage` leaves (rendering
mode `Value`, colour map 1, white, multiplier 1, no clipping), for a tool with
thickness 1 and the given cropping flag and line opacity. -/
def settings (crop : Bool) (opacity : ℚ) : FixelSettings where
  base := { flags := ⟨false, false, false⟩, colourmap := 1 }
  fixel_tool := { do_crop_to_slice := crop, line_opacity := opacity, line_thickness := 1 }
  color_type := .Value
  colour := (1, 1, 1)
  line_length := 9 / 20
  line_length_multiplier := 1
  scale_line_length_by_value := false

/-- The volume of a single voxel that holds no fixel. -/
def emptyVolume : FixelVolume where
  dim := fun _ => 1
  order := .xyz
  value := fun _ => []
  voxel2scanner := fun v => .mk (.fin v.x) (.fin v.y) (.fin v.z)

/-- The opaque configuration of the pipeline: no blending, depth test and
depth writes enabled. -/
def GLState.isSolid (s : GLState) : Prop :=
  s.blend = false ∧ s.depth_test = true ∧ s.depth_mask = true

/-- Collaborators that leave the pipeline state alone. -/
def inertCollaborators : Collaborators where
  start := fun s => s
  projection_set := fun s => s
  stop := fun s => s

/-- A pipeline state left behind by a translucent draw of some other object. -/
def translucentState : GLState where
  blend := true
  depth_test := false
  depth_mask := false
  blend_equation := .MAX
  blend_func := (.SRC_ALPHA, .ONE_MINUS_SRC_ALPHA)
  blend_color := (0, 0, 0, 0)
  line_width := 3
  vertex_array := []

/-! ## Searching the shader text -/

/-- The positions, counted from `i`, at which `pat` occurs in the text `s`. -/
def occurrencesFrom (pat : List Char) : Nat → List Char → List Nat
  | _, [] => []
  | i, c :: s => (if pat.isPrefixOf (c :: s) then [i] else []) ++ occurrencesFrom pat (i + 1) s

/-- The positions at which the text `pat` occurs in the text `s`. -/
def occurrences (pat s : String) : List Nat :=
  occurrencesFrom pat.toList 0 s.toList

/-- A shader whose cache is empty: nothing clipped, colour map 0, mode `Direction`. -/
def freshShader : Shader where
  base := { flags := ⟨false, false, false⟩, colourmap := 0 }
  do_crop_to_slice := false
  color_type := .Direction

/-! ## Reading a trace of `render` -/

/-- Whether a call is a `gl::MultiDrawArrays`. -/
def is_draw : GLCmd → Bool
  | .MultiDrawArrays _ _ _ => true
  | _ => false

/-- The multi-draw calls of a trace, in order. -/
def multi_draws (cmds : List GLCmd) : List GLCmd :=
  cmds.filter is_draw

/-- The pipeline states in which the draw calls of a trace are issued, in order. -/
def states_at_draws (c : Collaborators) : GLState → List GLCmd → List GLState
  | _, [] => []
  | s, cmd :: cmds =>
    (if is_draw cmd then [s] else []) ++ states_at_draws c (exec c s cmd) cmds

/-- The multi-draw call that covers one bucket of start offsets: one range of two
vertices per offset. -/
def bucket_call (bucket : List Nat) : GLCmd :=
  .MultiDrawArrays bucket (List.replicate bucket.length 2) bucket.length

/-! ## The value that the vertex program hands to the fragment program -/

/-- The square of the GLSL `length` of a point of three numbers; a point with
a coordinate that is not a number has none. -/
def Point.length_sq : Point → Option ℚ
  | .mk (.fin x) (.fin y) (.fin z) => some (x * x + y * y + z * z)
  | _ => none

/-- The square of `value_out = length (dir)` for the vertex `v` of the loaded
image. -/
def value_out_sq (img : FixelImage) (v : Nat) : Option ℚ :=
  match run_vertex img v with
  | none => none
  | some (_, dir) => dir.length_sq

/-! ## The colouring part of the vertex program -/

/-- The text that the vertex program of mode `Value` starts with, up to and
including the statements that set `gl_Position`. -/
def value_mode_head : String :=
  "layout (location = 0) in vec3 pos;\n" ++
  "layout (location = 1) in vec3 prev;\n" ++
  "layout (location = 2) in vec3 next;\n" ++
  "uniform mat4 MVP;\n" ++
  "uniform float line_length;\n" ++
  "uniform float max_value;\n" ++
  "uniform bool scale_line_length_by_value;\n" ++
  "flat out float value_out;\n" ++
  "out vec3 fragmentColour;\n" ++
  "uniform float offset, scale;\n" ++
  "void main() \x7b\n" ++
  "  vec3 centre = pos;\n" ++
  "  vec3 dir = next;\n" ++
  "  if ((gl_VertexID % 2) > 0) \x7b\n" ++
  "    centre = prev;\n" ++
  "    dir = -pos;\n" ++
  "  \x7d\n" ++
  "  value_out = length (dir);\n" ++
  "  if (scale_line_length_by_value)\n" ++
  "    gl_Position =  MVP * vec4 (centre + line_length * dir,1);\n" ++
  "  else    gl_Position =  MVP * vec4 (centre + line_length * normalize (dir),1);\n"

/-- The amplitude statement of the vertex program: none for a special colour
map, otherwise the clamp of the scaled value, of its complement when the scale
is inverted. -/
def amplitude_statement (special inverted : Bool) : String :=
  if special then ""
  else if inverted then
    "  float amplitude = clamp (1.0 - scale * (value_out - offset), 0.0, 1.0);\n"
  else "  float amplitude = clamp ( scale * (value_out - offset), 0.0, 1.0);\n"

/-- A colour map that is not special: grey levels. -/
def grayMap : ColourMapEntry :=
  ⟨false, "  color.rgb = vec3 (amplitude);\n"⟩

/-- A colour map that is not special, with another formula. -/
def hotMap : ColourMapEntry :=
  ⟨false, "  color.rgb = vec3 (2.7213 * amplitude, 2.7213 * amplitude - 1.0, 3.7727 * amplitude - 2.7727);\n"⟩

/-- A table of two colour maps that are not special and differ in their formula. -/
def twoMaps : List ColourMapEntry :=
  [grayMap, hotMap]

/-- A shader of mode `Value` whose cached colour map is `map`, nothing clipped. -/
def valueShader (map : Nat) : Shader where
  base := { flags := ⟨false, false, false⟩, colourmap := map }
  do_crop_to_slice := false
  color_type := .Value

/-! ## `mrcat`: the command `run ()` of `cmd/mrcat.cpp`

The image classes are not part of the sources at hand.  An input image is the
list of the sizes of its axes; reading the size of an axis that the image does
not have is a fault.  The data type of the output and the diffusion gradient
scheme, which `run ()` also sets, do not enter the sizes or the offsets and are
left out. -/

namespace mrcat

/-- Modelled from the spec: an input image as the image I/O abstraction that
`mrcat` is glue over shows it: the sizes of its axes, so that `ndim ()` is their
number and `size (axis)` reads one of them. -/
structure Image where
  sizes : List Int
deriving DecidableEq, Repr

/-- The ways in which `run ()` can end without an output: a read outside the
axes of an image, or the exception that it throws. -/
inductive Failure where
  | fault : Failure
  | exception (what : String) : Failure
deriving DecidableEq, Repr

/-- The result of `run ()`: the concatenation axis, the sizes of the header of
the output image as passed to `Image::create`, the value of `axis_offset` at
which each input image is written, and its value after the last image. -/
structure Output where
  axis : Int
  header_out : List Int
  offsets : List Int
  axis_offset : Int
deriving DecidableEq, Repr

/-- The number of axes `ndim ()`. -/
def Image.ndim (im : Image) : Nat := im.sizes.length

/-- The read `size (axis)`, with `axis` an `int`. -/
def Image.size (im : Image) (axis : Int) : Except Failure Int :=
  if axis < 0 then .error .fault
  else
    match im.sizes[axis.toNat]? with
    | some s => .ok s
    | none => .error .fault

/-- The conversion of an integer to `int` (32 bits, two's complement). -/
def to_int (x : Int) : Int := (x + 2147483648) % 4294967296 - 2147483648

/-- The conversion of an integer to `size_t` (64 bits). -/
def to_size_t (x : Int) : Int := x % 18446744073709551616

/-- The conversion of an integer to `ssize_t` (64 bits, two's complement). -/
def to_ssize_t (x : Int) : Int :=
  (x + 9223372036854775808) % 18446744073709551616 - 9223372036854775808

/-- The loop `for (last_dim = ndim () - 1; size (last_dim) <= 1 && last_dim >= 0;
last_dim--);` entered with `last_dim = k - 1`: its condition reads the size
first, also at `last_dim = -1`. -/
def last_dim_loop (im : Image) : Nat → Except Failure Int
  | 0 =>
    match im.size (-1) with
    | .error e => .error e
    | .ok _ => .ok (-1)
  | k + 1 =>
    match im.size k with
    | .error e => .error e
    | .ok s => if s ≤ 1 ∧ (0 : Int) ≤ k then last_dim_loop im k else .ok k

/-- The loop over the images `in[1]`, `in[2]`, ... that computes `ndims`, the
largest `last_dim` found, from its initial value. -/
def scan_dims : List Image → Int → Except Failure Int
  | [], ndims => .ok ndims
  | im :: others, ndims =>
    match last_dim_loop im im.ndim with
    | .error e => .error e
    | .ok last_dim => scan_dims others (if last_dim > ndims then last_dim else ndims)

/-- The start of `run ()`: the concatenation axis, from the option `-axis` or by
default `max (3, ndims)`, and `ndims` after `++ndims`. -/
def choose_axis (axis_option : Option Nat) (others : List Image) : Except Failure (Int × Int) :=
  let axis : Int :=
    match axis_option with
    | some a => a
    | none => -1
  match scan_dims others 0 with
  | .error e => .error e
  | .ok ndims => .ok (if axis < 0 then max 3 ndims else axis, ndims + 1)

/-- The text of the exception of the dimension check. -/
def mismatch : String := "dimensions of input images do not match"

/-- The loop over `n` of the dimension check, for the axis `i`. -/
def check_axis (first : Image) (i : Int) : List Image → Except Failure Unit
  | [] => .ok ()
  | im :: ims =>
    match first.size i, im.size i with
    | .ok a, .ok b =>
      if a ≠ b then .error (.exception mismatch)
      else check_axis first i ims
    | .error e, _ => .error e
    | _, .error e => .error e

/-- The dimension check: the loop over the axes `i` other than `axis`. -/
def check_dims (first : Image) (inputs : List Image) (axis : Int) : List Nat → Except Failure Unit
  | [] => .ok ()
  | i :: axes =>
    if (i : Int) ≠ axis then
      match check_axis first i inputs with
      | .error e => .error e
      | .ok _ => check_dims first inputs axis axes
    else check_dims first inputs axis axes

/-- Modelled from the spec: `Header::set_ndim`, which keeps the leading axes
and gives a new axis the size 1. -/
def set_ndim (sizes : List Int) (ndims : Nat) : List Int :=
  resize sizes ndims 1

/-- The size along axis `i` of the first image that has this axis: the loop
over `n` with its `break`. -/
def first_with_axis (i : Nat) : List Image → Option Int
  | [] => none
  | im :: ims =>
    match im.sizes[i]? with
    | some s => some s
    | none => first_with_axis i ims

/-- The body of the loop that fills the singleton axes of `header_out`. -/
def fill_axis (inputs : List Image) (header : List Int) (i : Nat) : List Int :=
  match header[i]? with
  | none => header
  | some s =>
    if s ≤ 1 then
      match first_with_axis i inputs with
      | some t => header.set i t
      | none => header
    else header

/-- The loop that fills the singleton axes of `header_out`. -/
def fill (inputs : List Image) (header : List Int) : List Int :=
  (List.range header.length).foldl (fill_axis inputs) header

/-- The term that one image adds to `axis_dim`. -/
def extent (axis : Nat) (im : Image) : Int :=
  match im.sizes[axis]? with
  | some s => if s > 1 then s else 1
  | none => 1

/-- The sum `axis_dim`, a `size_t`. -/
def axis_dim (axis : Nat) (inputs : List Image) : Int :=
  inputs.foldl (fun acc im => to_size_t (acc + extent axis im)) 0

/-- The copy loop: every image is written at the current `axis_offset`, an
`int`, which then grows by the size of the image along the axis, or by one when
the image does not have the axis. -/
def copy_images (axis : Nat) : List Image → Int → List Int × Int
  | [], axis_offset => ([], axis_offset)
  | im :: ims, axis_offset =>
    let next :=
      match im.sizes[axis]? with
      | some s => to_int (axis_offset + s)
      | none => to_int (axis_offset + 1)
    let r := copy_images axis ims next
    (axis_offset :: r.1, r.2)

/-- The command `run ()`, for the option `-axis` and the input images
`argument[0]` and `argument[1]`, ... -/
def run (axis_option : Option Nat) (first : Image) (others : List Image) :
    Except Failure Output :=
  match choose_axis axis_option others with
  | .error e => .error e
  | .ok (axis, ndims) =>
    match check_dims first (first :: others) axis (List.range ndims.toNat) with
    | .error e => .error e
    | .ok _ =>
      let ndims := if axis ≥ ndims then axis + 1 else ndims
      let header_out := set_ndim first.sizes ndims.toNat
      let header_out := fill (first :: others) header_out
      let header_out :=
        header_out.set axis.toNat (to_ssize_t (axis_dim axis.toNat (first :: others)))
      let copied := copy_images axis.toNat (first :: others) 0
      .ok ⟨axis, header_out, copied.1, copied.2⟩

/-! ### Specification -/

/-- The largest index of an axis of the image whose size exceeds one, or -1. -/
def last_nonsingleton (im : Image) : Int :=
  (List.range im.sizes.length).foldl
    (fun acc i => if im.sizes.getD i 0 > 1 then (i : Int) else acc) (-1)

/-- The largest index at which any of the images has a size that exceeds one,
or -1. -/
def largest_nonsingleton (inputs : List Image) : Int :=
  (inputs.map last_nonsingleton).foldl max (-1)

/-- The extent of an image along an axis: its size there if it has the axis,
else 1. -/
def extent_of (axis : Nat) (im : Image) : Int :=
  match im.sizes[axis]? with
  | some s => s
  | none => 1

/-- Whether the image `im` differs in size from `first` on the axis `i`; an
axis that an image does not have counts as of size 1. -/
def differs_on (first im : Image) (i : Nat) : Bool :=
  first.sizes.getD i 1 != im.sizes.getD i 1

end mrcat

/-! ## The loop of `load_image` computes the tessellation -/

theorem table_length {α : Type} (n : Nat) (f : Nat → α) : (table n f).length = n := by
  simp [table]

theorem table_getElem? {α : Type} (n : Nat) (f : Nat → α) (i : Nat) :
    (table n f)[i]? = if i < n then some (f i) else none := by
  simp only [table, List.getElem?_map, List.getElem?_range]
  by_cases h : i < n
  · simp [h, List.getElem?_range]
  · simp [h, List.getElem?_eq_none, Nat.le_of_not_lt h]

theorem table_congr {α : Type} (n : Nat) (f g : Nat → α) (h : ∀ i, i < n → f i = g i) :
    table n f = table n g := by
  unfold table
  apply List.map_congr_left
  intro i hi
  exact h i (List.mem_range.mp hi)

theorem table_const {α : Type} (n : Nat) (c : α) : table n (fun _ => c) = List.replicate n c := by
  apply List.ext_getElem?
  intro i
  rw [table_getElem?]
  by_cases h : i < n
  · simp [h, List.getElem?_replicate]
  · simp [h, List.getElem?_replicate]

theorem modifyAt_table {α : Type} (n : Nat) (f : Nat → α) (i : Nat) (g : α → α) (hi : i < n) :
    modifyAt (table n f) i g = some (table n fun k => if k = i then g (f k) else f k) := by
  unfold modifyAt
  rw [table_getElem?, if_pos hi]
  simp only [Option.some.injEq]
  apply List.ext_getElem?
  intro k
  rw [List.getElem?_set, table_getElem?, table_getElem?, table_length]
  by_cases hk : i = k
  · subst hk; simp [hi]
  · have hk2 : ¬ k = i := fun h => hk h.symm
    simp [hk, hk2]

theorem modifyAt2_table {α : Type} (n : Nat) (m : Nat → Nat) (F : Nat → Nat → α) (i j : Nat)
    (g : α → α) (hi : i < n) (hj : j < m i) :
    modifyAt2 (table n fun a => table (m a) (F a)) i j g =
      some (table n fun a => table (m a) fun s =>
        if a = i ∧ s = j then g (F a s) else F a s) := by
  unfold modifyAt2
  rw [table_getElem?, if_pos hi]
  simp only [modifyAt_table _ _ _ _ hj, Option.some.injEq]
  apply List.ext_getElem?
  intro k
  rw [List.getElem?_set, table_getElem?, table_getElem?, table_length]
  by_cases hk : i = k
  · subst hk; simp [hi]
  · have hk2 : ¬ k = i := fun h => hk h.symm
    simp [hk, hk2]

theorem offsetsAt_snoc (a s : Nat) (es : List (Voxel × FixelElement)) (v : Voxel)
    (e : FixelElement) :
    offsetsAt a s (es ++ [(v, e)]) =
      if s = v.get a then offsetsAt a s es ++ [2 * es.length] else offsetsAt a s es := by
  unfold offsetsAt
  rw [List.enum_append, List.filter_append, List.map_append]
  by_cases h : s = v.get a
  · simp [h, List.enumFrom]
  · have h2 : ¬ v.get a = s := fun h3 => h h3.symm
    simp [h, h2, List.enumFrom]

theorem countAt_snoc (a s : Nat) (es : List (Voxel × FixelElement)) (v : Voxel)
    (e : FixelElement) :
    countAt a s (es ++ [(v, e)]) = if s = v.get a then countAt a s es + 1 else countAt a s es := by
  unfold countAt
  rw [List.countP_append]
  by_cases h : s = v.get a
  · simp [h]
  · have h2 : ¬ v.get a = s := fun h3 => h h3.symm
    simp [h, h2]

theorem segments_length (vol : FixelVolume) (es : List (Voxel × FixelElement)) :
    (segments vol es).length = 2 * es.length := by
  induction es with
  | nil => rfl
  | cons p es ih =>
    simp only [segments, List.flatMap_cons, List.length_append, List.length_cons,
      List.length_nil] at ih ⊢
    omega

theorem segments_snoc (vol : FixelVolume) (es : List (Voxel × FixelElement)) (v : Voxel)
    (e : FixelElement) :
    segments vol (es ++ [(v, e)]) =
      (segments vol es ++ [vol.voxel2scanner v]) ++ [e.dir.scale e.value] := by
  simp [segments, List.flatMap_append]

theorem register_dim_tables (img : FixelImage) (d : Nat → Nat) (I S : Nat → Nat → List Nat)
    (C : Nat → Nat → Nat) (off : Nat) (v : Voxel) (a : Nat) (ha : a < 3) (hv : v.get a < d a) :
    register_dim off v
      { img with
        slice_fixel_indices := table 3 fun b => table (d b) (I b)
        slice_fixel_sizes := table 3 fun b => table (d b) (S b)
        slice_fixel_counts := table 3 fun b => table (d b) (C b) } a =
    some { img with
        slice_fixel_indices := table 3 fun b => table (d b) fun s =>
          if b = a ∧ s = v.get a then I b s ++ [off] else I b s
        slice_fixel_sizes := table 3 fun b => table (d b) fun s =>
          if b = a ∧ s = v.get a then S b s ++ [2] else S b s
        slice_fixel_counts := table 3 fun b => table (d b) fun s =>
          if b = a ∧ s = v.get a then C b s + 1 else C b s } := by
  unfold register_dim
  simp only [modifyAt2_table 3 d _ a (v.get a) _ ha hv]

theorem register_all_tables (d : Nat → Nat) (I S : Nat → Nat → List Nat)
    (C : Nat → Nat → Nat) (off : Nat) (v : Voxel) (hv : ∀ a, a < 3 → v.get a < d a)
    (vmin vmax : FloatVal) (w : FloatVal × FloatVal) (lo hi : FloatVal) (buf : List Point)
    (va : List VertexAttrib) :
    [0, 1, 2].foldlM (register_dim off v)
      ⟨table 3 fun b => table (d b) (I b), table 3 fun b => table (d b) (S b),
        table 3 fun b => table (d b) (C b), vmin, vmax, w, lo, hi, buf, va⟩ =
    some ⟨table 3 fun b => table (d b) fun s => if s = v.get b then I b s ++ [off] else I b s,
        table 3 fun b => table (d b) fun s => if s = v.get b then S b s ++ [2] else S b s,
        table 3 fun b => table (d b) fun s => if s = v.get b then C b s + 1 else C b s,
        vmin, vmax, w, lo, hi, buf, va⟩ := by
  have h0 := fun img I S C => register_dim_tables img d I S C off v 0 (by decide) (hv 0 (by decide))
  have h1 := fun img I S C => register_dim_tables img d I S C off v 1 (by decide) (hv 1 (by decide))
  have h2 := fun img I S C => register_dim_tables img d I S C off v 2 (by decide) (hv 2 (by decide))
  simp only [List.foldlM, bind, Option.bind] at *
  rw [h0 ⟨[], [], [], vmin, vmax, w, lo, hi, buf, va⟩]
  simp only []
  rw [h1 ⟨[], [], [], vmin, vmax, w, lo, hi, buf, va⟩]
  simp only []
  rw [h2 ⟨[], [], [], vmin, vmax, w, lo, hi, buf, va⟩]
  simp only [pure, Option.some.injEq, FixelImage.mk.injEq, and_true]
  refine ⟨?_, ?_, ?_⟩ <;>
  · apply table_congr
    intro b hb
    apply table_congr
    intro s _
    have hb3 : b = 0 ∨ b = 1 ∨ b = 2 := by omega
    rcases hb3 with rfl | rfl | rfl <;> simp

theorem runningMax_snoc (es : List (Voxel × FixelElement)) (v : Voxel) (e : FixelElement) :
    runningMax (es ++ [(v, e)]) =
      if FloatVal.lt (runningMax es) e.value then e.value else runningMax es := by
  simp [runningMax, List.foldl_append]

theorem runningMin_snoc (es : List (Voxel × FixelElement)) (v : Voxel) (e : FixelElement) :
    runningMin (es ++ [(v, e)]) =
      if FloatVal.lt e.value (runningMin es) then e.value else runningMin es := by
  simp [runningMin, List.foldl_append]

theorem load_fixel_tessellation (vol : FixelVolume) (es : List (Voxel × FixelElement))
    (v : Voxel) (e : FixelElement) (hv : ∀ a, a < 3 → v.get a < vol.dim a) :
    load_fixel vol v (tessellation vol es) e = some (tessellation vol (es ++ [(v, e)])) := by
  have hI : ∀ a s, a < 3 → s < vol.dim a →
      (if s = v.get a then offsetsAt a s es ++ [2 * es.length] else offsetsAt a s es) =
        offsetsAt a s (es ++ [(v, e)]) := fun a s _ _ => (offsetsAt_snoc a s es v e).symm
  have hS : ∀ a s, a < 3 → s < vol.dim a →
      (if s = v.get a then List.replicate (countAt a s es) 2 ++ [2]
        else List.replicate (countAt a s es) 2) =
        List.replicate (countAt a s (es ++ [(v, e)])) 2 := by
    intro a s _ _
    rw [countAt_snoc]
    by_cases h : s = v.get a
    · simp [h, List.replicate_succ']
    · simp [h]
  have hC : ∀ a s, a < 3 → s < vol.dim a →
      (if s = v.get a then countAt a s es + 1 else countAt a s es) =
        countAt a s (es ++ [(v, e)]) := fun a s _ _ => (countAt_snoc a s es v e).symm
  have HI := table_congr 3 _ _ fun a ha => table_congr (vol.dim a) _ _ fun s hs => hI a s ha hs
  have HS := table_congr 3 _ _ fun a ha => table_congr (vol.dim a) _ _ fun s hs => hS a s ha hs
  have HC := table_congr 3 _ _ fun a ha => table_congr (vol.dim a) _ _ fun s hs => hC a s ha hs
  unfold load_fixel
  simp only [tessellation, constructed]
  split_ifs with h1 h2 h2 <;>
  · simp only [List.length_cons, segments_length, Nat.add_sub_cancel]
    rw [register_all_tables vol.dim _ _ _ _ v hv, HI, HS, HC]
    simp [runningMax_snoc, runningMin_snoc, h1, h2, segments_snoc]

theorem load_fixels_tessellation (vol : FixelVolume) (v : Voxel)
    (hv : ∀ a, a < 3 → v.get a < vol.dim a) (l : List FixelElement) :
    ∀ es : List (Voxel × FixelElement),
      l.foldlM (load_fixel vol v) (tessellation vol es) =
        some (tessellation vol (es ++ l.map fun e => (v, e))) := by
  induction l with
  | nil => intro es; simp
  | cons e l ih =>
    intro es
    rw [List.foldlM_cons, load_fixel_tessellation vol es v e hv]
    simp only [Option.bind_eq_bind, Option.some_bind]
    rw [ih (es ++ [(v, e)])]
    simp

theorem load_voxels_tessellation (vol : FixelVolume) (vs : List Voxel)
    (hvs : ∀ v, v ∈ vs → ∀ a, a < 3 → v.get a < vol.dim a) :
    ∀ es : List (Voxel × FixelElement),
      vs.foldlM (load_voxel vol) (tessellation vol es) =
        some (tessellation vol (es ++ vs.flatMap fun v => (vol.value v).map fun e => (v, e))) := by
  induction vs with
  | nil => intro es; simp
  | cons v vs ih =>
    intro es
    rw [List.foldlM_cons]
    unfold load_voxel
    rw [load_fixels_tessellation vol v (hvs v (List.mem_cons_self v vs))]
    simp only [Option.bind_eq_bind, Option.some_bind]
    have := ih (fun u hu => hvs u (List.mem_cons_of_mem v hu)) (es ++ (vol.value v).map fun e => (v, e))
    unfold load_voxel at this
    rw [this]
    simp

theorem loopInOrder_in_range (o : AxisOrder) (d : Nat → Nat) (v : Voxel)
    (hv : v ∈ loopInOrder o d) : ∀ a, a < 3 → v.get a < d a := by
  intro a ha
  have ha3 : a = 0 ∨ a = 1 ∨ a = 2 := by omega
  cases o <;>
  · simp only [loopInOrder, List.mem_flatMap, List.mem_map, List.mem_range] at hv
    obtain ⟨i, hi, j, hj, k, hk, rfl⟩ := hv
    rcases ha3 with rfl | rfl | rfl <;> simpa [Voxel.get]

theorem resize_constructed (vol : FixelVolume) :
    [0, 1, 2].foldlM (resize_dim vol) constructed =
      some { tessellation vol [] with buffer := [] } := by
  simp [List.foldlM, resize_dim, modifyAt, constructed, resize, tessellation, table,
    List.range_succ, offsetsAt, countAt, runningMin, runningMax]

theorem construct_eq (vol : FixelVolume) : construct vol = some (loaded vol) := by
  unfold construct load_image
  rw [resize_constructed]
  have h : ({ ({ tessellation vol [] with buffer := [] } : FixelImage) with
      buffer := [Point.invalid] } : FixelImage) = tessellation vol [] := by
    simp [tessellation, segments]
  simp only [h]
  rw [load_voxels_tessellation vol _ (fun v hv => loopInOrder_in_range _ _ v hv)]
  simp [loaded, fixels]

/-! ## Counting the fixels -/

theorem sum_table (n : Nat) (f : Nat → Nat) :
    (table n f).sum = ∑ i in Finset.range n, f i := by
  unfold table
  induction n with
  | zero => simp
  | succ n ih => simp [List.range_succ, Finset.sum_range_succ, ih]

theorem sum_map_flatMap {α β : Type} (l : List α) (f : α → List β) (g : β → Nat) :
    ((l.flatMap f).map g).sum = (l.map fun a => ((f a).map g).sum).sum := by
  induction l with
  | nil => simp
  | cons a l ih => simp [List.flatMap_cons, ih]

theorem sum_map_range (n : Nat) (f : Nat → Nat) :
    ((List.range n).map f).sum = ∑ i in Finset.range n, f i := sum_table n f

theorem sum_swap12 (A B C : Finset Nat) (f : Nat → Nat → Nat → Nat) :
    ∑ a in A, ∑ b in B, ∑ c in C, f a b c = ∑ b in B, ∑ a in A, ∑ c in C, f a b c :=
  Finset.sum_comm

theorem sum_swap23 (A B C : Finset Nat) (f : Nat → Nat → Nat → Nat) :
    ∑ a in A, ∑ b in B, ∑ c in C, f a b c = ∑ a in A, ∑ c in C, ∑ b in B, f a b c :=
  Finset.sum_congr rfl fun _ _ => Finset.sum_comm

theorem loop_sum (o : AxisOrder) (d : Nat → Nat) (g : Voxel → Nat) :
    ((loopInOrder o d).map g).sum =
      ∑ x in Finset.range (d 0), ∑ y in Finset.range (d 1), ∑ z in Finset.range (d 2),
        g ⟨x, y, z⟩ := by
  cases o <;> simp only [loopInOrder, sum_map_flatMap, List.map_map, sum_map_range,
    Function.comp_def]
  · exact (sum_swap12 _ _ _ fun z y x => g ⟨x, y, z⟩).trans
      ((sum_swap23 _ _ _ fun y z x => g ⟨x, y, z⟩).trans
        (sum_swap12 _ _ _ fun y x z => g ⟨x, y, z⟩))
  · exact (sum_swap23 _ _ _ fun y z x => g ⟨x, y, z⟩).trans
      (sum_swap12 _ _ _ fun y x z => g ⟨x, y, z⟩)
  · exact (sum_swap12 _ _ _ fun z x y => g ⟨x, y, z⟩).trans
      (sum_swap23 _ _ _ fun x z y => g ⟨x, y, z⟩)
  · exact sum_swap23 _ _ _ fun x z y => g ⟨x, y, z⟩
  · exact sum_swap12 _ _ _ fun y x z => g ⟨x, y, z⟩

theorem fixels_length (vol : FixelVolume) : (fixels vol).length = totalElements vol := by
  have h : (fixels vol).length =
      ((loopInOrder vol.order vol.dim).map fun v => (vol.value v).length).sum := by
    unfold fixels
    generalize loopInOrder vol.order vol.dim = l
    induction l with
    | nil => simp
    | cons v l ih => simp [List.flatMap_cons, ih]
  rw [h, loop_sum]
  rfl

theorem countAt_fixels (vol : FixelVolume) (a s : Nat) :
    countAt a s (fixels vol) = elementsInSlice vol a s := by
  have h : countAt a s (fixels vol) =
      ((loopInOrder vol.order vol.dim).map fun v =>
        if v.get a = s then (vol.value v).length else 0).sum := by
    unfold fixels countAt
    generalize loopInOrder vol.order vol.dim = l
    induction l with
    | nil => simp
    | cons v l ih =>
      simp only [List.flatMap_cons, List.countP_append, ih, List.map_cons, List.sum_cons]
      congr 1
      by_cases hv : v.get a = s
      · simp [hv, List.countP_map, Function.comp_def]
      · simp [hv, List.countP_map, Function.comp_def]
  rw [h, loop_sum]
  rfl

theorem fixels_in_range (vol : FixelVolume) (p : Voxel × FixelElement) (hp : p ∈ fixels vol) :
    ∀ a, a < 3 → p.1.get a < vol.dim a := by
  unfold fixels at hp
  simp only [List.mem_flatMap, List.mem_map] at hp
  obtain ⟨v, hv, e, _, rfl⟩ := hp
  exact loopInOrder_in_range _ _ v hv

theorem mem_fixels (vol : FixelVolume) (v : Voxel) (e : FixelElement) :
    (v, e) ∈ fixels vol ↔ (∀ a, a < 3 → v.get a < vol.dim a) ∧ e ∈ vol.value v := by
  constructor
  · intro h
    refine ⟨fixels_in_range vol (v, e) h, ?_⟩
    unfold fixels at h
    simp only [List.mem_flatMap, List.mem_map, Prod.mk.injEq] at h
    obtain ⟨u, _, e1, he1, rfl, rfl⟩ := h
    exact he1
  · rintro ⟨hr, he⟩
    unfold fixels
    simp only [List.mem_flatMap, List.mem_map, Prod.mk.injEq]
    refine ⟨v, ?_, e, he, rfl, rfl⟩
    have h0 := hr 0 (by decide)
    have h1 := hr 1 (by decide)
    have h2 := hr 2 (by decide)
    simp only [Voxel.get] at h0 h1 h2
    cases hO : vol.order <;>
    · simp only [loopInOrder, List.mem_flatMap, List.mem_map, List.mem_range]
      first
        | exact ⟨v.z, h2, v.y, h1, v.x, h0, rfl⟩
        | exact ⟨v.y, h1, v.z, h2, v.x, h0, rfl⟩
        | exact ⟨v.z, h2, v.x, h0, v.y, h1, rfl⟩
        | exact ⟨v.x, h0, v.z, h2, v.y, h1, rfl⟩
        | exact ⟨v.y, h1, v.x, h0, v.z, h2, rfl⟩
        | exact ⟨v.x, h0, v.y, h1, v.z, h2, rfl⟩

theorem sum_countAt (d a : Nat) (es : List (Voxel × FixelElement))
    (h : ∀ p, p ∈ es → p.1.get a < d) :
    ∑ s in Finset.range d, countAt a s es = es.length := by
  induction es with
  | nil => simp [countAt]
  | cons p es ih =>
    have hp : p.1.get a < d := h p (List.mem_cons_self p es)
    have hrec := ih fun q hq => h q (List.mem_cons_of_mem p hq)
    have hstep : ∀ s, countAt a s (p :: es) =
        countAt a s es + if p.1.get a = s then 1 else 0 := by
      intro s
      unfold countAt
      rw [List.countP_cons]
      by_cases hs : p.1.get a = s <;> simp [hs]
    simp only [hstep, Finset.sum_add_distrib, hrec, Finset.sum_ite_eq, Finset.mem_range, hp,
      if_true, List.length_cons]

theorem bucket_at_table {α : Type} (d : Nat → Nat) (F : Nat → Nat → α) (a s : Nat) :
    bucket_at (table 3 fun b => table (d b) (F b)) a s =
      if a < 3 ∧ s < d a then some (F a s) else none := by
  unfold bucket_at
  rw [table_getElem?]
  by_cases ha : a < 3
  · simp only [ha, if_true, true_and, table_getElem?]
  · simp [ha]

/-! ## The vertex buffer and the slice partitions -/

theorem loaded_buffer (vol : FixelVolume) :
    (loaded vol).buffer = (Point.invalid :: segments vol (fixels vol)) ++ [Point.invalid] := rfl

theorem loaded_counts (vol : FixelVolume) :
    (loaded vol).slice_fixel_counts =
      table 3 fun a => table (vol.dim a) fun s => countAt a s (fixels vol) := rfl

theorem loaded_indices (vol : FixelVolume) :
    (loaded vol).slice_fixel_indices =
      table 3 fun a => table (vol.dim a) fun s => offsetsAt a s (fixels vol) := rfl

theorem loaded_sizes (vol : FixelVolume) :
    (loaded vol).slice_fixel_sizes =
      table 3 fun a => table (vol.dim a) fun s =>
        List.replicate (countAt a s (fixels vol)) 2 := rfl

theorem offsetsAt_length (a s : Nat) (es : List (Voxel × FixelElement)) :
    (offsetsAt a s es).length = countAt a s es := by
  induction es using List.reverseRecOn with
  | nil => rfl
  | append_singleton es p ih =>
    obtain ⟨v, e⟩ := p
    rw [offsetsAt_snoc, countAt_snoc]
    by_cases h : s = v.get a
    · rw [if_pos h, if_pos h, List.length_append, ih]
      rfl
    · rw [if_neg h, if_neg h, ih]

/-- C1: for every fixel volume, whatever its dimensions and its per-voxel fixel
lists, `load_image` succeeds and the vertex buffer it builds has length
`2 + 2 * N`, where `N` is the number of fixels summed over all voxels. -/
theorem load_image_buffer_length (vol : FixelVolume) :
    ∃ img, construct vol = some img ∧ img.buffer.length = 2 + 2 * totalElements vol := by
  refine ⟨loaded vol, construct_eq vol, ?_⟩
  rw [loaded_buffer, ← fixels_length]
  simp only [List.length_append, List.length_cons, segments_length, List.length_nil]
  omega

/-- C2: for every fixel volume and every axis, after `load_image` the vector
`slice_fixel_counts[a]` has one entry per slice of the axis and its entries sum
to the total number of fixels of the volume. -/
theorem slice_counts_sum (vol : FixelVolume) (a : Fin 3) :
    ∃ img counts, construct vol = some img ∧ img.slice_fixel_counts[a.val]? = some counts ∧
      counts.length = vol.dim a ∧ counts.sum = totalElements vol := by
  refine ⟨loaded vol, table (vol.dim a) fun s => countAt a s (fixels vol), construct_eq vol,
    ?_, table_length _ _, ?_⟩
  · rw [loaded_counts, table_getElem?, if_pos a.isLt]
  · rw [sum_table, ← fixels_length]
    exact sum_countAt _ _ _ fun p hp => fixels_in_range vol p hp a a.isLt

/-- C3: for every fixel volume, every axis `a` and every slice `s` of that
axis, after `load_image` the bucket `(a, s)` holds exactly the segments of the
fixels whose voxel has coordinate `s` along `a`: the count is the number of
those fixels, and the index list is the list of their start offsets `2 * k` in
visitation order, as long as the count.  In the 2x2x2 scenario the buffer has
length 8 and the counts at slices 0 and 1 are (2,1), (1,2) and (2,1) on the
axes 0, 1 and 2, whatever the stride order. -/
theorem slice_bucket_contents :
    (∀ (vol : FixelVolume) (a : Fin 3) (s : Nat), s < vol.dim a →
      ∃ img, construct vol = some img ∧
        bucket_at img.slice_fixel_counts a s = some (elementsInSlice vol a s) ∧
        bucket_at img.slice_fixel_indices a s = some (offsetsAt a s (fixels vol)) ∧
        (offsetsAt a s (fixels vol)).length = elementsInSlice vol a s) ∧
    (∀ o : AxisOrder, ∃ img, construct (scenarioVolume o) = some img ∧
      img.buffer.length = 8 ∧ img.slice_fixel_counts = [[2, 1], [1, 2], [2, 1]]) := by
  constructor
  · intro vol a s hs
    refine ⟨loaded vol, construct_eq vol, ?_, ?_, ?_⟩
    · rw [loaded_counts, bucket_at_table, if_pos ⟨a.isLt, hs⟩, countAt_fixels]
    · rw [loaded_indices, bucket_at_table, if_pos ⟨a.isLt, hs⟩]
    · rw [offsetsAt_length, countAt_fixels]
  · intro o
    refine ⟨loaded (scenarioVolume o), construct_eq _, ?_, ?_⟩
    · cases o <;> decide
    · cases o <;> decide

/-- C3, at the scenario volume: slice 1 of axis 0 holds the one fixel of voxel
(1,0,1), whose segment starts at offset 4. -/
theorem slice_bucket_contents_witness :
    1 < (scenarioVolume .xyz).dim (0 : Fin 3) ∧
    ∃ img, construct (scenarioVolume .xyz) = some img ∧
      bucket_at img.slice_fixel_counts (0 : Fin 3) 1 = some 1 ∧
      bucket_at img.slice_fixel_indices (0 : Fin 3) 1 = some [4] := by
  refine ⟨by decide, ?_⟩
  obtain ⟨img, h, hc, hi, _⟩ := slice_bucket_contents.1 (scenarioVolume .xyz) 0 1 (by decide)
  refine ⟨img, h, ?_, ?_⟩
  · rw [hc]; decide
  · rw [hi]; decide

/-! ## Segments, offsets and the vertex program -/

theorem segments_getElem? (vol : FixelVolume) (es : List (Voxel × FixelElement)) :
    ∀ (k : Nat) (v : Voxel) (e : FixelElement), es[k]? = some (v, e) →
      (segments vol es)[2 * k]? = some (vol.voxel2scanner v) ∧
      (segments vol es)[2 * k + 1]? = some (e.dir.scale e.value) := by
  induction es with
  | nil => intro k v e h; simp at h
  | cons p es ih =>
    intro k v e h
    cases k with
    | zero =>
      simp only [List.getElem?_cons_zero, Option.some.injEq] at h
      subst h
      simp [segments, List.flatMap_cons]
    | succ k =>
      simp only [List.getElem?_cons_succ] at h
      have hk := ih k v e h
      have h2 : 2 * (k + 1) = (2 * k + 1) + 1 := by omega
      have hs : segments vol (p :: es) =
          vol.voxel2scanner p.1 :: p.2.dir.scale p.2.value :: segments vol es := by
        simp [segments, List.flatMap_cons]
      rw [hs, h2]
      simp only [List.getElem?_cons_succ]
      exact hk

theorem mem_offsetsAt (a : Nat) (es : List (Voxel × FixelElement)) (k : Nat) (v : Voxel)
    (e : FixelElement) (h : es[k]? = some (v, e)) : 2 * k ∈ offsetsAt a (v.get a) es := by
  unfold offsetsAt
  simp only [List.mem_map, List.mem_filter, decide_eq_true_eq]
  exact ⟨(k, (v, e)), ⟨List.mk_mem_enum_iff_getElem?.mpr h, rfl⟩, rfl⟩

theorem fetch_attrib_layout (buf : List Point) (w : Nat) :
    fetch_attrib buf ⟨3, 0, 3 * sizeof_float⟩ w = buf[w + 1]? ∧
    fetch_attrib buf ⟨3, 0, 0⟩ w = buf[w]? ∧
    fetch_attrib buf ⟨3, 0, 6 * sizeof_float⟩ w = buf[w + 2]? := by
  simp only [fetch_attrib, sizeof_float, if_true]
  have e1 : (3 * 4 + w * (3 * 4)) % (3 * 4) = 0 := by omega
  have e2 : (3 * 4 + w * (3 * 4)) / (3 * 4) = w + 1 := by omega
  have e3 : (0 + w * (3 * 4)) % (3 * 4) = 0 := by omega
  have e4 : (0 + w * (3 * 4)) / (3 * 4) = w := by omega
  have e5 : (6 * 4 + w * (3 * 4)) % (3 * 4) = 0 := by omega
  have e6 : (6 * 4 + w * (3 * 4)) / (3 * 4) = w + 2 := by omega
  rw [e1, e2, e3, e4, e5, e6]
  simp

theorem run_vertex_loaded (vol : FixelVolume) (w : Nat) (pos prev next : Point)
    (h0 : (loaded vol).buffer[w]? = some prev) (h1 : (loaded vol).buffer[w + 1]? = some pos)
    (h2 : (loaded vol).buffer[w + 2]? = some next) :
    run_vertex (loaded vol) w = some (vertex_main w pos prev next) := by
  have hl : (loaded vol).vertex_attribs = attrib_layout := rfl
  obtain ⟨f0, f1, f2⟩ := fetch_attrib_layout (loaded vol).buffer w
  unfold run_vertex
  rw [hl]
  simp only [attrib_layout]
  rw [f0, f1, f2, h0, h1, h2]

theorem loaded_buffer_getElem? (vol : FixelVolume) (k : Nat) (v : Voxel) (e : FixelElement)
    (h : (fixels vol)[k]? = some (v, e)) :
    (loaded vol).buffer[2 * k + 1]? = some (vol.voxel2scanner v) ∧
    (loaded vol).buffer[2 * k + 2]? = some (e.dir.scale e.value) := by
  obtain ⟨ha, hb⟩ := segments_getElem? vol (fixels vol) k v e h
  have hlen := segments_length vol (fixels vol)
  have hk : k < (fixels vol).length := by
    rcases Nat.lt_or_ge k (fixels vol).length with h1 | h1
    · exact h1
    · rw [List.getElem?_eq_none h1] at h
      cases h
  rw [loaded_buffer]
  constructor
  · rw [List.cons_append, List.getElem?_cons_succ, List.getElem?_append_left (by omega)]
    exact ha
  · rw [List.cons_append, List.getElem?_cons_succ, List.getElem?_append_left (by omega)]
    exact hb

theorem loaded_buffer_prev (vol : FixelVolume) (k : Nat) (hk : k < (fixels vol).length) :
    ∃ p, (loaded vol).buffer[2 * k]? = some p := by
  have hlen := segments_length vol (fixels vol)
  have : 2 * k < (loaded vol).buffer.length := by
    rw [loaded_buffer]
    simp only [List.length_append, List.length_cons, List.length_nil]
    omega
  exact ⟨_, List.getElem?_eq_getElem this⟩

theorem loaded_buffer_next (vol : FixelVolume) (k : Nat) (hk : k < (fixels vol).length) :
    ∃ p, (loaded vol).buffer[2 * k + 3]? = some p := by
  have hlen := segments_length vol (fixels vol)
  have : 2 * k + 3 < (loaded vol).buffer.length := by
    rw [loaded_buffer]
    simp only [List.length_append, List.length_cons, List.length_nil]
    omega
  exact ⟨_, List.getElem?_eq_getElem this⟩

theorem scale_numbers (dx dy dz q : ℚ) :
    (Point.mk (.fin dx) (.fin dy) (.fin dz)).scale (.fin q) =
      .mk (.fin (dx * q)) (.fin (dy * q)) (.fin (dz * q)) := rfl

theorem neg_numbers (a b c : ℚ) :
    (Point.mk (.fin a) (.fin b) (.fin c)).neg = .mk (.fin (-a)) (.fin (-b)) (.fin (-c)) := rfl

/-- C4: for every fixel volume with `N` fixels, the buffer starts and ends with
a sentinel, and the `k`-th fixel in visitation order is registered with start
offset `2 * k` in the bucket of its voxel on each of the three axes, with its
voxel's scanner position at `buffer[2k+1]` and its direction times its value at
`buffer[2k+2]`.  The vertex array binds `pos = buffer[w+1]`, `prev = buffer[w]`
and `next = buffer[w+2]` for the vertex `w`, and the vertex program run on the
vertices `2k` and `2k+1` reads inside the buffer and yields the centre of that
fixel with the direction `+(dir * value)` and `-(dir * value)`.  For a
direction `(dx, dy, dz)` and a value `q` that are numbers these two directions
are `(dx q, dy q, dz q)` and `(-(dx q), -(dy q), -(dz q))`. -/
theorem segment_layout (vol : FixelVolume) :
    ∃ img, construct vol = some img ∧
      img.buffer[0]? = some Point.invalid ∧
      img.buffer[2 * totalElements vol + 1]? = some Point.invalid ∧
      (∃ a0 a1 a2, img.vertex_attribs = [a0, a1, a2] ∧ ∀ w,
        fetch_attrib img.buffer a0 w = img.buffer[w + 1]? ∧
        fetch_attrib img.buffer a1 w = img.buffer[w]? ∧
        fetch_attrib img.buffer a2 w = img.buffer[w + 2]?) ∧
      ∀ (k : Nat) (v : Voxel) (e : FixelElement), (fixels vol)[k]? = some (v, e) →
        (∀ a : Fin 3, ∃ l, bucket_at img.slice_fixel_indices a (v.get a) = some l ∧ 2 * k ∈ l) ∧
        img.buffer[2 * k + 1]? = some (vol.voxel2scanner v) ∧
        img.buffer[2 * k + 2]? = some (e.dir.scale e.value) ∧
        run_vertex img (2 * k) = some (vol.voxel2scanner v, e.dir.scale e.value) ∧
        run_vertex img (2 * k + 1) = some (vol.voxel2scanner v, (e.dir.scale e.value).neg) ∧
        ∀ dx dy dz q : ℚ, e.dir = .mk (.fin dx) (.fin dy) (.fin dz) → e.value = .fin q →
          img.buffer[2 * k + 2]? = some (.mk (.fin (dx * q)) (.fin (dy * q)) (.fin (dz * q))) ∧
          run_vertex img (2 * k) =
            some (vol.voxel2scanner v, .mk (.fin (dx * q)) (.fin (dy * q)) (.fin (dz * q))) ∧
          run_vertex img (2 * k + 1) =
            some (vol.voxel2scanner v,
              .mk (.fin (-(dx * q))) (.fin (-(dy * q))) (.fin (-(dz * q)))) := by
  refine ⟨loaded vol, construct_eq vol, by simp [loaded_buffer], ?_, ?_, ?_⟩
  · have hlen := segments_length vol (fixels vol)
    rw [loaded_buffer, ← fixels_length, List.cons_append, List.getElem?_cons_succ,
      List.getElem?_append_right (by omega)]
    simp [hlen]
  · exact ⟨_, _, _, rfl, fun w => fetch_attrib_layout _ w⟩
  · intro k v e h
    have hk : k < (fixels vol).length := by
      rcases Nat.lt_or_ge k (fixels vol).length with h1 | h1
      · exact h1
      · rw [List.getElem?_eq_none h1] at h
        cases h
    obtain ⟨hpos, hdir⟩ := loaded_buffer_getElem? vol k v e h
    obtain ⟨prev, hprev⟩ := loaded_buffer_prev vol k hk
    obtain ⟨next, hnext⟩ := loaded_buffer_next vol k hk
    have hodd : (2 * k + 1) % 2 = 1 := by omega
    have heven : run_vertex (loaded vol) (2 * k) =
        some (vol.voxel2scanner v, e.dir.scale e.value) := by
      rw [run_vertex_loaded vol (2 * k) _ prev _ hprev hpos hdir]
      simp [vertex_main]
    have hoddv : run_vertex (loaded vol) (2 * k + 1) =
        some (vol.voxel2scanner v, (e.dir.scale e.value).neg) := by
      rw [run_vertex_loaded vol (2 * k + 1) _ _ next hpos hdir hnext]
      simp [vertex_main, hodd]
    refine ⟨?_, hpos, hdir, heven, hoddv, ?_⟩
    · intro a
      refine ⟨offsetsAt a (v.get a) (fixels vol), ?_, mem_offsetsAt a _ k v e h⟩
      rw [loaded_indices, bucket_at_table,
        if_pos ⟨a.isLt, fixels_in_range vol (v, e) (List.getElem?_mem h) a a.isLt⟩]
    · intro dx dy dz q hd hq
      rw [hd, hq, scale_numbers] at hdir heven hoddv
      rw [neg_numbers] at hoddv
      exact ⟨hdir, heven, hoddv⟩

/-- C4, at the scenario volume: the first fixel visited is the first one of
voxel (0,1,0), of direction (0,1,0) and value 2; the two vertices of its
segment are centred on (0,1,0) and point along (0,2,0) and (0,-2,0). -/
theorem segment_layout_witness :
    (fixels (scenarioVolume .xyz))[0]? =
      some (⟨0, 1, 0⟩, ⟨.mk (.fin 0) (.fin 1) (.fin 0), .fin 2⟩) ∧
    ∃ img, construct (scenarioVolume .xyz) = some img ∧
      img.buffer[2]? = some (.mk (.fin 0) (.fin 2) (.fin 0)) ∧
      run_vertex img 0 =
        some (.mk (.fin 0) (.fin 1) (.fin 0), .mk (.fin 0) (.fin 2) (.fin 0)) ∧
      run_vertex img 1 =
        some (.mk (.fin 0) (.fin 1) (.fin 0), .mk (.fin 0) (.fin (-2)) (.fin 0)) := by
  have h0 : (fixels (scenarioVolume .xyz))[0]? =
      some (⟨0, 1, 0⟩, ⟨.mk (.fin 0) (.fin 1) (.fin 0), .fin 2⟩) := by decide
  obtain ⟨img, hc, _, _, _, hk⟩ := segment_layout (scenarioVolume .xyz)
  obtain ⟨_, _, _, _, _, hnum⟩ := hk 0 ⟨0, 1, 0⟩ ⟨.mk (.fin 0) (.fin 1) (.fin 0), .fin 2⟩ h0
  obtain ⟨hb, hv0, hv1⟩ := hnum 0 1 0 2 rfl rfl
  have hp : (scenarioVolume .xyz).voxel2scanner ⟨0, 1, 0⟩ =
      .mk (.fin 0) (.fin 1) (.fin 0) := by
    simp [scenarioVolume]
  rw [hp] at hv0 hv1
  norm_num at hb hv0 hv1
  exact ⟨h0, img, hc, hb, hv0, hv1⟩
/-! ## The value range -/

theorem FloatVal.le_self (a : FloatVal) (ha : a ≠ .nan) : FloatVal.le a a = true := by
  cases a <;> simp [FloatVal.le] at ha ⊢

theorem FloatVal.le_from_lt (a b : FloatVal) (h : FloatVal.lt a b = true) :
    FloatVal.le a b = true := by
  cases a <;> cases b <;> simp [FloatVal.lt, FloatVal.le] at h ⊢
  exact le_of_lt h

theorem FloatVal.le_from_not_lt (a b : FloatVal) (ha : a ≠ .nan) (hb : b ≠ .nan)
    (h : FloatVal.lt a b = false) : FloatVal.le b a = true := by
  cases a <;> cases b <;> simp [FloatVal.lt, FloatVal.le] at ha hb h ⊢
  exact h

theorem FloatVal.le_chain (a b c : FloatVal) (hab : FloatVal.le a b = true)
    (hbc : FloatVal.le b c = true) : FloatVal.le a c = true := by
  cases a <;> cases b <;> cases c <;> simp [FloatVal.le] at hab hbc ⊢
  exact le_trans hab hbc

theorem FloatVal.le_numbers (a b : ℚ) : FloatVal.le (.fin a) (.fin b) = true ↔ a ≤ b := by
  simp [FloatVal.le]

theorem FloatVal.ne_nan_of_le (a b : FloatVal) (h : FloatVal.le a b = true) :
    a ≠ .nan ∧ b ≠ .nan := by
  cases a <;> cases b <;> simp [FloatVal.le] at h ⊢

theorem FloatVal.eq_negInf_of_le (a : FloatVal) (h : FloatVal.le a .negInf = true) :
    a = .negInf := by
  cases a <;> simp [FloatVal.le] at h ⊢

theorem FloatVal.eq_posInf_of_le (a : FloatVal) (h : FloatVal.le .posInf a = true) :
    a = .posInf := by
  cases a <;> simp [FloatVal.le] at h ⊢

theorem runningMax_bounds (es : List (Voxel × FixelElement))
    (hnan : ∀ p, p ∈ es → p.2.value ≠ .nan) :
    runningMax es ≠ .nan ∧
    (runningMax es = .negInf ∨ ∃ p, p ∈ es ∧ p.2.value = runningMax es) ∧
    ∀ p, p ∈ es → FloatVal.le p.2.value (runningMax es) = true := by
  induction es using List.reverseRecOn with
  | nil => exact ⟨by simp [runningMax], Or.inl rfl, by simp⟩
  | append_singleton es q ih =>
    obtain ⟨v, e⟩ := q
    have he : e.value ≠ .nan := hnan (v, e) (by simp)
    obtain ⟨hm, _, hle⟩ := ih (fun p hp => hnan p (List.mem_append_left _ hp))
    rw [runningMax_snoc]
    cases hlt : FloatVal.lt (runningMax es) e.value
    · have hge := FloatVal.le_from_not_lt _ _ hm he hlt
      simp only [Bool.false_eq_true, if_false]
      refine ⟨hm, ?_, ?_⟩
      · rename_i hex
        rcases hex with h | ⟨p, hp, hpv⟩
        · exact Or.inl h
        · exact Or.inr ⟨p, List.mem_append_left _ hp, hpv⟩
      · intro p hp
        rcases List.mem_append.mp hp with h1 | h1
        · exact hle p h1
        · simp only [List.mem_singleton] at h1
          subst h1
          exact hge
    · have hge := FloatVal.le_from_lt _ _ hlt
      simp only [if_true]
      refine ⟨he, Or.inr ⟨(v, e), by simp, rfl⟩, ?_⟩
      intro p hp
      rcases List.mem_append.mp hp with h1 | h1
      · exact FloatVal.le_chain _ _ _ (hle p h1) hge
      · simp only [List.mem_singleton] at h1
        subst h1
        exact FloatVal.le_self _ he

theorem runningMin_bounds (es : List (Voxel × FixelElement))
    (hnan : ∀ p, p ∈ es → p.2.value ≠ .nan) :
    runningMin es ≠ .nan ∧
    (runningMin es = .posInf ∨ ∃ p, p ∈ es ∧ p.2.value = runningMin es) ∧
    ∀ p, p ∈ es → FloatVal.le (runningMin es) p.2.value = true := by
  induction es using List.reverseRecOn with
  | nil => exact ⟨by simp [runningMin], Or.inl rfl, by simp⟩
  | append_singleton es q ih =>
    obtain ⟨v, e⟩ := q
    have he : e.value ≠ .nan := hnan (v, e) (by simp)
    obtain ⟨hm, hex, hle⟩ := ih (fun p hp => hnan p (List.mem_append_left _ hp))
    rw [runningMin_snoc]
    cases hlt : FloatVal.lt e.value (runningMin es)
    · have hge := FloatVal.le_from_not_lt _ _ he hm hlt
      simp only [Bool.false_eq_true, if_false]
      refine ⟨hm, ?_, ?_⟩
      · rcases hex with h | ⟨p, hp, hpv⟩
        · exact Or.inl h
        · exact Or.inr ⟨p, List.mem_append_left _ hp, hpv⟩
      · intro p hp
        rcases List.mem_append.mp hp with h1 | h1
        · exact hle p h1
        · simp only [List.mem_singleton] at h1
          subst h1
          exact hge
    · have hge := FloatVal.le_from_lt _ _ hlt
      simp only [if_true]
      refine ⟨he, Or.inr ⟨(v, e), by simp, rfl⟩, ?_⟩
      intro p hp
      rcases List.mem_append.mp hp with h1 | h1
      · exact FloatVal.le_chain _ _ _ hge (hle p h1)
      · simp only [List.mem_singleton] at h1
        subst h1
        exact FloatVal.le_self _ he

theorem runningMax_attained (es : List (Voxel × FixelElement)) (hne : es ≠ [])
    (hnan : ∀ p, p ∈ es → p.2.value ≠ .nan) :
    ∃ p, p ∈ es ∧ p.2.value = runningMax es := by
  obtain ⟨_, hex, hle⟩ := runningMax_bounds es hnan
  rcases hex with h | h
  · obtain ⟨p, hp⟩ := List.exists_mem_of_ne_nil es hne
    have := hle p hp
    rw [h] at this ⊢
    exact ⟨p, hp, FloatVal.eq_negInf_of_le _ this⟩
  · exact h

theorem runningMin_attained (es : List (Voxel × FixelElement)) (hne : es ≠ [])
    (hnan : ∀ p, p ∈ es → p.2.value ≠ .nan) :
    ∃ p, p ∈ es ∧ p.2.value = runningMin es := by
  obtain ⟨_, hex, hle⟩ := runningMin_bounds es hnan
  rcases hex with h | h
  · obtain ⟨p, hp⟩ := List.exists_mem_of_ne_nil es hne
    have := hle p hp
    rw [h] at this ⊢
    exact ⟨p, hp, FloatVal.eq_posInf_of_le _ this⟩
  · exact h

/-- C5, refuted as stated: the volume of one voxel whose single fixel has the
value NaN has one element, yet after construction `value_min` is still
`+infinity` and `value_max` still `-infinity`, neither of them the value of an
element: both comparisons of the loop are false on NaN. -/
theorem value_range_nan :
    totalElements nanVolume = 1 ∧
    ∃ img, construct nanVolume = some img ∧
      img.value_min = .posInf ∧ img.value_max = .negInf ∧
      ∀ v e, nanVolume.contains v → e ∈ nanVolume.value v →
        e.value = .nan ∧ e.value ≠ img.value_min ∧ e.value ≠ img.value_max := by
  refine ⟨by decide, loaded nanVolume, construct_eq nanVolume, by decide, by decide, ?_⟩
  intro v e _ he
  have hmin : (loaded nanVolume).value_min = .posInf := by decide
  have hmax : (loaded nanVolume).value_max = .negInf := by decide
  simp only [nanVolume, List.mem_singleton] at he
  subst he
  rw [hmin, hmax]
  exact ⟨rfl, by decide, by decide⟩

/-- C5, amended: for a volume none of whose fixel values is NaN, after
construction, which sets `value_min` to `+infinity` and `value_max` to
`-infinity` and then runs `load_image`, a volume with at least one fixel has
`value_min` equal to the least and `value_max` equal to the greatest value
among the fixels of its voxels: both are the value of a fixel, and every fixel
value lies between them, in the order of the floats and, where the three are
numbers, in the order of the numbers.  A volume without fixels has
`value_max < value_min`. -/
theorem value_range (vol : FixelVolume)
    (hnan : ∀ v e, vol.contains v → e ∈ vol.value v → e.value ≠ .nan) :
    ∃ img, construct vol = some img ∧
      (0 < totalElements vol →
        (∃ v e, vol.contains v ∧ e ∈ vol.value v ∧ e.value = img.value_min) ∧
        (∃ v e, vol.contains v ∧ e ∈ vol.value v ∧ e.value = img.value_max) ∧
        (∀ v e, vol.contains v → e ∈ vol.value v →
          FloatVal.le img.value_min e.value = true ∧
          FloatVal.le e.value img.value_max = true) ∧
        ∀ v e (lo q hi : ℚ), vol.contains v → e ∈ vol.value v →
          img.value_min = .fin lo → e.value = .fin q → img.value_max = .fin hi →
          lo ≤ q ∧ q ≤ hi) ∧
      (totalElements vol = 0 → FloatVal.lt img.value_max img.value_min = true) := by
  have hmin : (loaded vol).value_min = runningMin (fixels vol) := rfl
  have hmax : (loaded vol).value_max = runningMax (fixels vol) := rfl
  have hnan1 : ∀ p, p ∈ fixels vol → p.2.value ≠ .nan := by
    intro p hp
    obtain ⟨hr, he⟩ := (mem_fixels vol p.1 p.2).mp hp
    exact hnan p.1 p.2 hr he
  refine ⟨loaded vol, construct_eq vol, ?_, ?_⟩
  · intro hpos
    rw [← fixels_length] at hpos
    have hne : fixels vol ≠ [] := List.ne_nil_of_length_pos hpos
    obtain ⟨p, hp, hpl⟩ := runningMin_attained (fixels vol) hne hnan1
    obtain ⟨q, hq, hqh⟩ := runningMax_attained (fixels vol) hne hnan1
    obtain ⟨_, _, hlb⟩ := runningMin_bounds (fixels vol) hnan1
    obtain ⟨_, _, hub⟩ := runningMax_bounds (fixels vol) hnan1
    have hb : ∀ v e, vol.contains v → e ∈ vol.value v →
        FloatVal.le (loaded vol).value_min e.value = true ∧
        FloatVal.le e.value (loaded vol).value_max = true := by
      intro v e hv he
      have hm := (mem_fixels vol v e).mpr ⟨hv, he⟩
      rw [hmin, hmax]
      exact ⟨hlb (v, e) hm, hub (v, e) hm⟩
    refine ⟨?_, ?_, hb, ?_⟩
    · obtain ⟨hr, he⟩ := (mem_fixels vol p.1 p.2).mp hp
      exact ⟨p.1, p.2, hr, he, hpl.trans hmin.symm⟩
    · obtain ⟨hr, he⟩ := (mem_fixels vol q.1 q.2).mp hq
      exact ⟨q.1, q.2, hr, he, hqh.trans hmax.symm⟩
    · intro v e lo x hi hv he hlo hx hhi
      obtain ⟨h1, h2⟩ := hb v e hv he
      rw [hlo, hx] at h1
      rw [hx, hhi] at h2
      exact ⟨(FloatVal.le_numbers lo x).mp h1, (FloatVal.le_numbers x hi).mp h2⟩
  · intro hzero
    rw [← fixels_length] at hzero
    have hnil : fixels vol = [] := List.eq_nil_of_length_eq_zero hzero
    rw [hmin, hmax, hnil]
    rfl

theorem scenarioVolume_no_nan (o : AxisOrder) (v : Voxel) (e : FixelElement)
    (he : e ∈ (scenarioVolume o).value v) : e.value ≠ .nan := by
  simp only [scenarioVolume] at he
  split_ifs at he
  · simp only [List.mem_singleton] at he
    subst he
    decide
  · simp only [List.mem_cons, List.mem_singleton, List.not_mem_nil, or_false] at he
    rcases he with he | he <;> subst he <;> decide
  · simp at he

/-- C5, amended, at the scenario volume, which has fixels of values 3, 2 and
-5, none of them NaN. -/
theorem value_range_witness :
    (∀ v e, (scenarioVolume .xyz).contains v → e ∈ (scenarioVolume .xyz).value v →
      e.value ≠ .nan) ∧
    0 < totalElements (scenarioVolume .xyz) ∧
    ∃ img, construct (scenarioVolume .xyz) = some img ∧
      img.value_min = .fin (-5) ∧ img.value_max = .fin 3 := by
  have hn : ∀ v e, (scenarioVolume .xyz).contains v → e ∈ (scenarioVolume .xyz).value v →
      e.value ≠ .nan := fun v e _ he => scenarioVolume_no_nan .xyz v e he
  have hpos : 0 < totalElements (scenarioVolume .xyz) := by decide
  obtain ⟨img, hc, _, _⟩ := value_range (scenarioVolume .xyz) hn
  have himg : img = loaded (scenarioVolume .xyz) := by
    rw [construct_eq] at hc
    exact (Option.some.inj hc).symm
  subst himg
  exact ⟨hn, hpos, _, hc, by decide, by decide⟩

/-! ## Every axis partition covers every segment once -/

theorem table_succ {α : Type} (n : Nat) (f : Nat → α) : table (n + 1) f = table n f ++ [f n] := by
  simp [table, List.range_succ]

theorem flatten_table_push (n s0 c : Nat) (f : Nat → List Nat) (h : s0 < n) :
    (table n fun s => if s = s0 then f s ++ [c] else f s).flatten.Perm
      ((table n f).flatten ++ [c]) := by
  induction n with
  | zero => omega
  | succ n ih =>
    rw [table_succ, table_succ, List.flatten_append, List.flatten_append]
    simp only [List.flatten_cons, List.flatten_nil, List.append_nil]
    by_cases hs : s0 = n
    · subst hs
      have hc : (table s0 fun s => if s = s0 then f s ++ [c] else f s) = table s0 f := by
        apply table_congr
        intro i hi
        have : ¬ i = s0 := by omega
        simp [this]
      rw [hc, if_pos rfl, List.append_assoc]
    · have hlt : s0 < n := by omega
      have hn : ¬ n = s0 := fun h1 => hs h1.symm
      rw [if_neg hn]
      have h1 := (ih hlt).append_right (f n)
      refine h1.trans ?_
      rw [List.append_assoc, List.append_assoc]
      exact List.Perm.append_left _ List.perm_append_comm

theorem flatten_offsets_perm (d a : Nat) (es : List (Voxel × FixelElement))
    (h : ∀ p, p ∈ es → p.1.get a < d) :
    (table d fun s => offsetsAt a s es).flatten.Perm
      ((List.range es.length).map fun k => 2 * k) := by
  induction es using List.reverseRecOn with
  | nil =>
    have : (table d fun s => offsetsAt a s []) = table d fun _ => [] :=
      table_congr _ _ _ fun _ _ => rfl
    rw [this, table_const]
    simp
  | append_singleton es p ih =>
    obtain ⟨v, e⟩ := p
    have hv : v.get a < d := h (v, e) (by simp)
    have hes := ih fun q hq => h q (List.mem_append_left _ hq)
    have hstep : (table d fun s => offsetsAt a s (es ++ [(v, e)])) =
        table d fun s => if s = v.get a then offsetsAt a s es ++ [2 * es.length]
          else offsetsAt a s es :=
      table_congr _ _ _ fun s _ => offsetsAt_snoc a s es v e
    rw [hstep, List.length_append, List.length_singleton, List.range_succ, List.map_append]
    exact (flatten_table_push d (v.get a) (2 * es.length) _ hv).trans (hes.append_right _)

/-- C6: for every fixel volume and each of the three axes, the concatenation
over all slices of the axis of the start offsets in `slice_fixel_indices[a]`
is a rearrangement of the list of the start offsets `0, 2, ..., 2 (N - 1)` of
all `N` fixels: every segment occurs exactly once. -/
theorem partition_covers_once (vol : FixelVolume) (a : Fin 3) :
    ∃ img buckets, construct vol = some img ∧
      img.slice_fixel_indices[a.val]? = some buckets ∧
      buckets.flatten.Perm ((List.range (totalElements vol)).map fun k => 2 * k) := by
  refine ⟨loaded vol, table (vol.dim a) fun s => offsetsAt a s (fixels vol), construct_eq vol,
    ?_, ?_⟩
  · rw [loaded_indices, table_getElem?, if_pos a.isLt]
  · rw [← fixels_length]
    exact flatten_offsets_perm _ _ _ fun p hp => fixels_in_range vol p hp a a.isLt

/-! ## Rendering -/

theorem at_int_natCast {α : Type} (m : List α) (i : Nat) : at_int m (i : Int) = m[i]? := by
  simp [at_int]

theorem collect_mem {α β : Type} (f : α → Option β) (l : List α) :
    ∀ r, collect f l = some r → ∀ y, y ∈ r → ∃ x, f x = some y := by
  induction l with
  | nil =>
    intro r h y hy
    simp only [collect, Option.some.injEq] at h
    subst h
    cases hy
  | cons a l ih =>
    intro r h y hy
    unfold collect at h
    split at h
    · rename_i b bs hb hbs
      simp only [Option.some.injEq] at h
      subst h
      rcases List.mem_cons.mp hy with rfl | h1
      · exact ⟨a, hb⟩
      · exact ih bs hbs y h1
    · cases h

theorem draw_bucket_shape (img : FixelImage) (axis slice : Int) (cmd : GLCmd)
    (h : draw_bucket img axis slice = some cmd) :
    ∃ first count drawcount, cmd = .MultiDrawArrays first count drawcount := by
  unfold draw_bucket at h
  split at h
  · split at h
    · split at h
      · simp only [Option.some.injEq] at h
        exact ⟨_, _, _, h.symm⟩
      · cases h
    · cases h
  · cases h

theorem draw_calls_shape (img : FixelImage) (fixel : FixelSettings) (axis slice : Int)
    (calls : List GLCmd) (h : draw_calls img fixel axis slice = some calls) :
    ∀ cmd, cmd ∈ calls → ∃ first count drawcount, cmd = .MultiDrawArrays first count drawcount := by
  intro cmd hcmd
  unfold draw_calls at h
  split at h
  · split at h
    · cases h
    · obtain ⟨x, hx⟩ := collect_mem _ _ calls h cmd hcmd
      exact draw_bucket_shape img 0 x cmd hx
  · split at h
    · cases h
    · rename_i call hcall
      simp only [Option.some.injEq] at h
      subst h
      simp only [List.mem_singleton] at hcmd
      subst hcmd
      exact draw_bucket_shape img axis slice cmd hcall

theorem run_draws (c : Collaborators) (calls : List GLCmd)
    (h : ∀ cmd, cmd ∈ calls → ∃ first count drawcount,
      cmd = .MultiDrawArrays first count drawcount) :
    ∀ s, run c s calls = s := by
  induction calls with
  | nil => intro s; rfl
  | cons cmd calls ih =>
    intro s
    obtain ⟨f, n, k, rfl⟩ := h _ (List.mem_cons_self _ _)
    have := ih (fun x hx => h x (List.mem_cons_of_mem _ hx)) s
    simpa [run, exec] using this

theorem run_append (c : Collaborators) (s : GLState) (l1 l2 : List GLCmd) :
    run c s (l1 ++ l2) = run c (run c s l1) l2 := by
  simp [run, List.foldl_append]

theorem draw_bucket_empty (vol : FixelVolume) (a s : Nat) (ha : a < 3) (hs : s < vol.dim a)
    (hempty : elementsInSlice vol a s = 0) :
    draw_bucket (loaded vol) a s = none := by
  have hc : countAt a s (fixels vol) = 0 := by rw [countAt_fixels]; exact hempty
  have hl : (offsetsAt a s (fixels vol)).length = 0 := by rw [offsetsAt_length]; exact hc
  have ho : offsetsAt a s (fixels vol) = [] := List.eq_nil_of_length_eq_zero hl
  unfold draw_bucket
  simp only [at_int_natCast, loaded_indices, loaded_sizes, loaded_counts, table_getElem?, ha, hs,
    if_true, ho, addr_of_first]

theorem collect_none {α β : Type} (f : α → Option β) (l : List α) (x : α) (hx : x ∈ l)
    (hf : f x = none) : collect f l = none := by
  induction l with
  | nil => cases hx
  | cons a l ih =>
    unfold collect
    rcases List.mem_cons.mp hx with rfl | h1
    · rw [hf]
    · rw [ih h1]
      split <;> simp_all

theorem render_cropped_empty_bucket (vol : FixelVolume) (fixel : FixelSettings) (a s : Nat)
    (ha : a < 3) (hs : s < vol.dim a) (hempty : elementsInSlice vol a s = 0)
    (hcrop : fixel.fixel_tool.do_crop_to_slice = true) :
    render (loaded vol) fixel a s = none := by
  unfold render draw_calls
  simp [hcrop, draw_bucket_empty vol a s ha hs hempty]

theorem render_whole_empty_bucket (vol : FixelVolume) (fixel : FixelSettings) (axis slice : Int)
    (s : Nat) (hs : s < vol.dim 0) (hempty : elementsInSlice vol 0 s = 0)
    (hcrop : fixel.fixel_tool.do_crop_to_slice = false) :
    render (loaded vol) fixel axis slice = none := by
  have h0 : (loaded vol).slice_fixel_indices[0]? =
      some (table (vol.dim 0) fun x => offsetsAt 0 x (fixels vol)) := by
    rw [loaded_indices, table_getElem?, if_pos (by decide)]
  have hc := collect_none (fun x : Nat => draw_bucket (loaded vol) 0 x)
    (List.range (vol.dim 0)) s (List.mem_range.mpr hs)
    (draw_bucket_empty vol 0 s (by decide) hs hempty)
  unfold render draw_calls
  simp only [hcrop, h0, table_length]
  simp [hc]

/-- C7, at the volume of one voxel without fixels: `load_image` gives a buffer
of length 2 and empty buckets with count 0, and `render` takes element 0 of the
empty bucket, both without cropping and when cropping to slice 0 of axis 0: the
lookup faults. -/
theorem render_empty_volume_faults :
    ∃ img, construct emptyVolume = some img ∧
      img.buffer.length = 2 ∧
      img.slice_fixel_indices = [[[]], [[]], [[]]] ∧
      img.slice_fixel_sizes = [[[]], [[]], [[]]] ∧
      img.slice_fixel_counts = [[0], [0], [0]] ∧
      render img (settings false 1) 0 0 = none ∧
      render img (settings true 1) 0 0 = none := by
  refine ⟨loaded emptyVolume, construct_eq _, ?_, ?_, ?_, ?_, ?_, ?_⟩ <;> decide

/-- C8: for every line opacity, every loaded image and every pipeline state
before the call, when `render` returns the pipeline is in the opaque
configuration (blending off, depth test on, depth writes on), provided that
`Displayable::stop` leaves these three settings alone; and `render` returns
unless one of its draw lookups faults. -/
theorem render_restores_state (c : Collaborators)
    (hstop : ∀ s, (c.stop s).blend = s.blend ∧ (c.stop s).depth_test = s.depth_test ∧
      (c.stop s).depth_mask = s.depth_mask)
    (img : FixelImage) (fixel : FixelSettings) (axis slice : Int) (s : GLState) :
    (∀ cmds, render img fixel axis slice = some cmds → (run c s cmds).isSolid) ∧
    (render img fixel axis slice = none ↔ draw_calls img fixel axis slice = none) := by
  constructor
  · intro cmds h
    unfold render at h
    split at h
    · cases h
    · rename_i calls hcalls
      have hdraw := run_draws c calls (draw_calls_shape img fixel axis slice calls hcalls)
      simp only [Option.some.injEq] at h
      subst h
      unfold GLState.isSolid render_finish
      by_cases hop : fixel.fixel_tool.line_opacity < 1
      · simp only [hop, if_true, run_append]
        obtain ⟨h1, h2, h3⟩ := hstop (run c (run c (run c s (render_setup img fixel)) calls)
          [GLCmd.Disable Cap.BLEND, GLCmd.Enable Cap.DEPTH_TEST, GLCmd.DepthMask true])
        have hs : ∀ t, run c t [GLCmd.stop] = c.stop t := fun _ => rfl
        rw [hs, h1, h2, h3]
        simp [run, exec]
      · simp only [hop, if_false, run_append, List.nil_append, hdraw]
        obtain ⟨h1, h2, h3⟩ := hstop (run c s (render_setup img fixel))
        have hs : ∀ t, run c t [GLCmd.stop] = c.stop t := fun _ => rfl
        rw [hs, h1, h2, h3]
        unfold render_setup
        simp only [hop, if_false, run_append]
        simp [run, exec]
  · unfold render
    split <;> simp_all

/-- C8, at the scenario volume cropped to slice 1 of axis 1, starting from a
translucent pipeline state: with opacity 1/2 and with opacity 1 `render`
returns and leaves the opaque configuration. -/
theorem render_restores_state_witness :
    (∀ s, (inertCollaborators.stop s).blend = s.blend ∧
      (inertCollaborators.stop s).depth_test = s.depth_test ∧
      (inertCollaborators.stop s).depth_mask = s.depth_mask) ∧
    (∃ cmds, render (loaded (scenarioVolume .xyz)) (settings true (1 / 2)) 1 1 = some cmds ∧
      (run inertCollaborators translucentState cmds).isSolid) ∧
    (∃ cmds, render (loaded (scenarioVolume .xyz)) (settings true 1) 1 1 = some cmds ∧
      (run inertCollaborators translucentState cmds).isSolid) := by
  have hstop : ∀ s, (inertCollaborators.stop s).blend = s.blend ∧
      (inertCollaborators.stop s).depth_test = s.depth_test ∧
      (inertCollaborators.stop s).depth_mask = s.depth_mask := fun _ => ⟨rfl, rfl, rfl⟩
  refine ⟨hstop, ?_, ?_⟩
  · have h : (render (loaded (scenarioVolume .xyz)) (settings true (1 / 2)) 1 1).isSome = true := by
      decide
    obtain ⟨cmds, hc⟩ := Option.isSome_iff_exists.mp h
    exact ⟨cmds, hc, (render_restores_state inertCollaborators hstop _ _ 1 1
      translucentState).1 cmds hc⟩
  · have h : (render (loaded (scenarioVolume .xyz)) (settings true 1) 1 1).isSome = true := by
      decide
    obtain ⟨cmds, hc⟩ := Option.isSome_iff_exists.mp h
    exact ⟨cmds, hc, (render_restores_state inertCollaborators hstop _ _ 1 1
      translucentState).1 cmds hc⟩

/-! ## The shader cache -/

/-- C9: `need_update` reports true whenever the rendering mode of the object
differs from the cached one, and otherwise reports what the base
`Displayable::Shader::need_update` reports.  Right after `update` it reports
false for the unchanged object, and it reports true once the rendering mode, the
lower clip flag, the upper clip flag, the scale inversion or the colour map of
the object, and nothing else, has changed. -/
theorem need_update_contract :
    (∀ (sh : Shader) (fixel : FixelSettings), sh.color_type ≠ fixel.color_type →
      sh.need_update fixel = true) ∧
    (∀ (sh : Shader) (fixel : FixelSettings), sh.color_type = fixel.color_type →
      sh.need_update fixel = Displayable.Shader.need_update sh.base fixel.base) ∧
    (∀ (sh : Shader) (fixel : FixelSettings), (sh.update fixel).need_update fixel = false) ∧
    (∀ (sh : Shader) (fixel : FixelSettings) (mode : ColourType), mode ≠ fixel.color_type →
      (sh.update fixel).need_update { fixel with color_type := mode } = true) ∧
    (∀ (sh : Shader) (fixel : FixelSettings) (b : Bool), b ≠ fixel.base.flags.discard_lower →
      (sh.update fixel).need_update
        { fixel with base := { fixel.base with
            flags := { fixel.base.flags with discard_lower := b } } } = true) ∧
    (∀ (sh : Shader) (fixel : FixelSettings) (b : Bool), b ≠ fixel.base.flags.discard_upper →
      (sh.update fixel).need_update
        { fixel with base := { fixel.base with
            flags := { fixel.base.flags with discard_upper := b } } } = true) ∧
    (∀ (sh : Shader) (fixel : FixelSettings) (b : Bool), b ≠ fixel.base.flags.scale_inverted →
      (sh.update fixel).need_update
        { fixel with base := { fixel.base with
            flags := { fixel.base.flags with scale_inverted := b } } } = true) ∧
    (∀ (sh : Shader) (fixel : FixelSettings) (map : Nat), map ≠ fixel.base.colourmap →
      (sh.update fixel).need_update
        { fixel with base := { fixel.base with colourmap := map } } = true) := by
  refine ⟨?_, ?_, ?_, ?_, ?_, ?_, ?_, ?_⟩
  · intro sh fixel h
    simp [Shader.need_update, h]
  · intro sh fixel h
    simp [Shader.need_update, h]
  · intro sh fixel
    simp [Shader.need_update, Shader.update, Displayable.Shader.need_update,
      Displayable.Shader.update]
  · intro sh fixel mode h
    simp [Shader.need_update, Shader.update, Ne.symm h]
  · intro sh fixel b h
    obtain ⟨⟨⟨lo, up, inv⟩, cm⟩, tool, ct, col, ll, llm, sl⟩ := fixel
    simp only at h
    simp [Shader.need_update, Shader.update, Displayable.Shader.need_update,
      Displayable.Shader.update, Ne.symm h]
  · intro sh fixel b h
    obtain ⟨⟨⟨lo, up, inv⟩, cm⟩, tool, ct, col, ll, llm, sl⟩ := fixel
    simp only at h
    simp [Shader.need_update, Shader.update, Displayable.Shader.need_update,
      Displayable.Shader.update, Ne.symm h]
  · intro sh fixel b h
    obtain ⟨⟨⟨lo, up, inv⟩, cm⟩, tool, ct, col, ll, llm, sl⟩ := fixel
    simp only at h
    simp [Shader.need_update, Shader.update, Displayable.Shader.need_update,
      Displayable.Shader.update, Ne.symm h]
  · intro sh fixel map h
    obtain ⟨⟨⟨lo, up, inv⟩, cm⟩, tool, ct, col, ll, llm, sl⟩ := fixel
    simp only at h
    simp [Shader.need_update, Shader.update, Displayable.Shader.need_update,
      Displayable.Shader.update, Ne.symm h]

/-- C9, at the settings the constructor leaves: after an update, switching the
rendering mode from `Value` to `Direction`, or the lower clip flag on, or the
colour map from 1 to 2, makes the cached program stale. -/
theorem need_update_contract_witness :
    ColourType.Direction ≠ (settings false 1).color_type ∧
    (freshShader.update (settings false 1)).need_update
      { settings false 1 with color_type := .Direction } = true ∧
    (freshShader.update (settings false 1)).need_update
      { settings false 1 with base := { (settings false 1).base with
          flags := { (settings false 1).base.flags with discard_lower := true } } } = true ∧
    (freshShader.update (settings false 1)).need_update
      { settings false 1 with base := { (settings false 1).base with colourmap := 2 } } = true :=
  ⟨by decide,
    need_update_contract.2.2.2.1 freshShader (settings false 1) .Direction (by decide),
    need_update_contract.2.2.2.2.1 freshShader (settings false 1) true (by decide),
    need_update_contract.2.2.2.2.2.2.2 freshShader (settings false 1) 2 (by decide)⟩

/-! ## The fragment program -/

set_option maxRecDepth 100000 in
/-- C10: for every combination of the two clip flags, the fragment source
declares `uniform float lower;` and holds `if (value_out < lower) discard;`
exactly when lower clipping is active, declares `uniform float upper;` and holds
`if (value_out > upper) discard;` exactly when upper clipping is active; the
opening of `main` and the assignment `color = fragmentColour;` occur once each,
and every discard statement lies between them. -/
theorem fragment_source_discards (fixel : FixelSettings) :
    (occurrences "uniform float lower;" (Shader.fragment_shader_source fixel) ≠ [] ↔
      fixel.base.flags.discard_lower = true) ∧
    (occurrences "if (value_out < lower) discard;" (Shader.fragment_shader_source fixel) ≠ [] ↔
      fixel.base.flags.discard_lower = true) ∧
    (occurrences "uniform float upper;" (Shader.fragment_shader_source fixel) ≠ [] ↔
      fixel.base.flags.discard_upper = true) ∧
    (occurrences "if (value_out > upper) discard;" (Shader.fragment_shader_source fixel) ≠ [] ↔
      fixel.base.flags.discard_upper = true) ∧
    ∃ main assign,
      occurrences "void main()\x7b" (Shader.fragment_shader_source fixel) = [main] ∧
      occurrences "color = fragmentColour;" (Shader.fragment_shader_source fixel) = [assign] ∧
      ∀ p, p ∈ occurrences " discard;" (Shader.fragment_shader_source fixel) →
        main < p ∧ p < assign := by
  rcases Bool.eq_false_or_eq_true fixel.base.flags.discard_lower with hlo | hlo <;>
  rcases Bool.eq_false_or_eq_true fixel.base.flags.discard_upper with hup | hup <;>
  simp only [Shader.fragment_shader_source, hlo, hup, if_true, if_false, Bool.false_eq_true]
  · exact ⟨by decide, by decide, by decide, by decide, 126, 209, by decide, by decide, by decide⟩
  · exact ⟨by decide, by decide, by decide, by decide, 105, 154, by decide, by decide, by decide⟩
  · exact ⟨by decide, by decide, by decide, by decide, 105, 154, by decide, by decide, by decide⟩
  · exact ⟨by decide, by decide, by decide, by decide, 84, 99, by decide, by decide, by decide⟩

/-! ## The draw calls of `render` -/

theorem addr_of_first_ne_nil {α : Type} (v : List α) (h : v ≠ []) :
    addr_of_first v = some v := by
  cases v with
  | nil => exact absurd rfl h
  | cons a l => rfl

theorem draw_bucket_loaded (vol : FixelVolume) (axis slice : Int) :
    draw_bucket (loaded vol) axis slice =
      if 0 ≤ axis ∧ axis.toNat < 3 ∧ 0 ≤ slice ∧ slice.toNat < vol.dim axis.toNat ∧
          offsetsAt axis.toNat slice.toNat (fixels vol) ≠ [] then
        some (bucket_call (offsetsAt axis.toNat slice.toNat (fixels vol)))
      else none := by
  unfold draw_bucket at_int
  by_cases ha : axis < 0
  · have : ¬ 0 ≤ axis := by omega
    simp [ha, this]
  · have ha0 : 0 ≤ axis := by omega
    simp only [ha, if_false, loaded_indices, loaded_sizes, loaded_counts, table_getElem?]
    by_cases ha3 : axis.toNat < 3
    · simp only [ha3, if_true]
      by_cases hs : slice < 0
      · have : ¬ 0 ≤ slice := by omega
        simp [hs, this]
      · have hs0 : 0 ≤ slice := by omega
        simp only [hs, if_false, table_getElem?]
        by_cases hsd : slice.toNat < vol.dim axis.toNat
        · simp only [hsd, if_true]
          have hlen := offsetsAt_length axis.toNat slice.toNat (fixels vol)
          by_cases he : offsetsAt axis.toNat slice.toNat (fixels vol) = []
          · have hc : countAt axis.toNat slice.toNat (fixels vol) = 0 := by
              rw [← hlen, he]; rfl
            simp [he, hc, addr_of_first]
          · have hc : countAt axis.toNat slice.toNat (fixels vol) ≠ 0 := by
              intro h0
              rw [h0] at hlen
              exact he (List.eq_nil_of_length_eq_zero hlen)
            have hr : List.replicate (countAt axis.toNat slice.toNat (fixels vol)) 2 ≠ [] := by
              intro h0
              have := congrArg List.length h0
              simp at this
              exact hc this
            rw [addr_of_first_ne_nil _ he, addr_of_first_ne_nil _ hr]
            simp [he, ha0, ha3, hs0, hsd, bucket_call, hlen]
        · simp [hsd]
    · simp [ha3]

theorem collect_eq_map {α β : Type} (f : α → Option β) (g : α → β) (l : List α) :
    ∀ r, collect f l = some r → (∀ x, x ∈ l → ∀ y, f x = some y → y = g x) → r = l.map g := by
  induction l with
  | nil =>
    intro r h _
    simp only [collect, Option.some.injEq] at h
    simp [← h]
  | cons a l ih =>
    intro r h hg
    unfold collect at h
    split at h
    · rename_i b bs hb hbs
      simp only [Option.some.injEq] at h
      subst h
      have h1 := hg a (List.mem_cons_self a l) b hb
      have h2 := ih bs hbs fun x hx y hy => hg x (List.mem_cons_of_mem a hx) y hy
      simp [h1, h2]
    · cases h

theorem multi_draws_render (img : FixelImage) (fixel : FixelSettings) (axis slice : Int)
    (cmds : List GLCmd) (h : render img fixel axis slice = some cmds) :
    draw_calls img fixel axis slice = some (multi_draws cmds) := by
  unfold render at h
  split at h
  · cases h
  · rename_i calls hcalls
    simp only [Option.some.injEq] at h
    subst h
    rw [hcalls]
    have hshape := draw_calls_shape img fixel axis slice calls hcalls
    have hall : calls.filter is_draw = calls := by
      apply List.filter_eq_self.mpr
      intro cmd hcmd
      obtain ⟨f, n, k, rfl⟩ := hshape cmd hcmd
      rfl
    have hsetup : (render_setup img fixel).filter is_draw = [] := by
      unfold render_setup
      simp only [List.filter_append]
      split_ifs <;> rfl
    have hfinish : (render_finish fixel).filter is_draw = [] := by
      unfold render_finish
      simp only [List.filter_append]
      split_ifs <;> rfl
    simp only [multi_draws, List.filter_append, hall, hsetup, hfinish, List.nil_append,
      List.append_nil]

theorem collect_isSome {α β : Type} (f : α → Option β) (l : List α)
    (h : ∀ x, x ∈ l → (f x).isSome = true) : (collect f l).isSome = true := by
  induction l with
  | nil => rfl
  | cons a l ih =>
    obtain ⟨b, hb⟩ := Option.isSome_iff_exists.mp (h a (List.mem_cons_self a l))
    obtain ⟨bs, hbs⟩ := Option.isSome_iff_exists.mp
      (ih fun x hx => h x (List.mem_cons_of_mem a hx))
    simp [collect, hb, hbs]

theorem draw_bucket_nonempty (vol : FixelVolume) (a s : Nat) (ha : a < 3) (hs : s < vol.dim a)
    (hne : elementsInSlice vol a s ≠ 0) : (draw_bucket (loaded vol) a s).isSome = true := by
  have hlen := offsetsAt_length a s (fixels vol)
  rw [countAt_fixels] at hlen
  have he : offsetsAt a s (fixels vol) ≠ [] := by
    intro h0
    rw [h0] at hlen
    exact hne hlen.symm
  rw [draw_bucket_loaded, if_pos]
  · rfl
  · exact ⟨Int.natCast_nonneg a, by simpa using ha, Int.natCast_nonneg s, by simpa using hs,
      by simpa using he⟩

theorem render_returns (vol : FixelVolume) (fixel : FixelSettings) :
    (fixel.fixel_tool.do_crop_to_slice = false →
      (∀ x, x < vol.dim 0 → elementsInSlice vol 0 x ≠ 0) →
      ∀ axis slice : Int, (render (loaded vol) fixel axis slice).isSome = true) ∧
    (fixel.fixel_tool.do_crop_to_slice = true →
      ∀ a s : Nat, a < 3 → s < vol.dim a → elementsInSlice vol a s ≠ 0 →
      (render (loaded vol) fixel a s).isSome = true) := by
  constructor
  · intro hcrop hall axis slice
    have h0 : (loaded vol).slice_fixel_indices[0]? =
        some (table (vol.dim 0) fun x => offsetsAt 0 x (fixels vol)) := by
      rw [loaded_indices, table_getElem?, if_pos (by decide)]
    have hc := collect_isSome (fun x : Nat => draw_bucket (loaded vol) 0 x)
      (List.range (vol.dim 0)) fun x hx =>
        draw_bucket_nonempty vol 0 x (by decide) (List.mem_range.mp hx)
          (hall x (List.mem_range.mp hx))
    obtain ⟨calls, hcalls⟩ := Option.isSome_iff_exists.mp hc
    unfold render draw_calls
    simp [hcrop, h0, table_length, hcalls]
  · intro hcrop a s ha hs hne
    obtain ⟨call, hcall⟩ := Option.isSome_iff_exists.mp (draw_bucket_nonempty vol a s ha hs hne)
    unfold render draw_calls
    simp [hcrop, hcall]

/-- C11, refuted as stated: for the 2x2x2 scenario volume rendered without
cropping, `render` issues two multi-draw calls, one for each slice of axis 0. -/
theorem render_whole_volume_two_calls :
    ∃ cmds, render (loaded (scenarioVolume .xyz)) (settings false 1) 0 0 = some cmds ∧
      multi_draws cmds = [bucket_call [0, 2], bucket_call [4]] ∧
      (multi_draws cmds).length ≠ 1 := by
  have h : (render (loaded (scenarioVolume .xyz)) (settings false 1) 0 0).isSome = true := by
    decide
  obtain ⟨cmds, hc⟩ := Option.isSome_iff_exists.mp h
  have hd := multi_draws_render _ _ _ _ cmds hc
  have he : draw_calls (loaded (scenarioVolume .xyz)) (settings false 1) 0 0 =
      some [bucket_call [0, 2], bucket_call [4]] := by decide
  rw [he] at hd
  have hm : multi_draws cmds = [bucket_call [0, 2], bucket_call [4]] :=
    (Option.some.inj hd).symm
  exact ⟨cmds, hc, hm, by rw [hm]; decide⟩

/-- C11, amended: for a loaded fixel volume `render` returns when every bucket
it addresses holds a segment, and whenever it returns its multi-draw calls are,
without cropping, one call per slice of axis 0, in slice order, the call of
slice `x` covering the bucket `(0, x)`, so that together they cover the
concatenation of the axis-0 buckets; and with cropping exactly one call, which
covers the bucket of the requested axis and slice. -/
theorem render_draw_calls (vol : FixelVolume) :
    ∃ img, construct vol = some img ∧
      (∀ fixel : FixelSettings,
        (fixel.fixel_tool.do_crop_to_slice = false →
          (∀ x, x < vol.dim 0 → elementsInSlice vol 0 x ≠ 0) →
          ∀ axis slice : Int, (render img fixel axis slice).isSome = true) ∧
        (fixel.fixel_tool.do_crop_to_slice = true →
          ∀ a s : Nat, a < 3 → s < vol.dim a → elementsInSlice vol a s ≠ 0 →
          (render img fixel a s).isSome = true)) ∧
      ∀ (fixel : FixelSettings) (axis slice : Int) (cmds : List GLCmd),
        render img fixel axis slice = some cmds →
        (fixel.fixel_tool.do_crop_to_slice = false →
          ∃ buckets, img.slice_fixel_indices[0]? = some buckets ∧
            buckets.length = vol.dim 0 ∧
            multi_draws cmds = buckets.map bucket_call) ∧
        (fixel.fixel_tool.do_crop_to_slice = true →
          ∃ (a s : Nat) (bucket : List Nat), axis = a ∧ slice = s ∧
            bucket_at img.slice_fixel_indices a s = some bucket ∧
            multi_draws cmds = [bucket_call bucket]) := by
  refine ⟨loaded vol, construct_eq vol, render_returns vol, ?_⟩
  intro fixel axis slice cmds h
  have hd := multi_draws_render _ _ _ _ cmds h
  constructor
  · intro hcrop
    refine ⟨table (vol.dim 0) fun x => offsetsAt 0 x (fixels vol), ?_, table_length _ _, ?_⟩
    · rw [loaded_indices, table_getElem?, if_pos (by decide)]
    · have h0 : (loaded vol).slice_fixel_indices[0]? =
          some (table (vol.dim 0) fun x => offsetsAt 0 x (fixels vol)) := by
        rw [loaded_indices, table_getElem?, if_pos (by decide)]
      unfold draw_calls at hd
      simp only [hcrop, h0, table_length, Bool.not_false, if_true] at hd
      have hm := collect_eq_map _ (fun x : Nat => bucket_call (offsetsAt 0 x (fixels vol)))
        _ _ hd (by
          intro x _ y hy
          rw [draw_bucket_loaded] at hy
          split at hy
          · simpa using hy.symm
          · cases hy)
      rw [hm]
      simp [table, Function.comp_def]
  · intro hcrop
    unfold draw_calls at hd
    simp only [hcrop, Bool.not_true, Bool.false_eq_true, if_false] at hd
    split at hd
    · cases hd
    · rename_i call hcall
      rw [draw_bucket_loaded] at hcall
      split at hcall
      · rename_i hcond
        obtain ⟨ha0, ha3, hs0, hsd, _⟩ := hcond
        refine ⟨axis.toNat, slice.toNat, offsetsAt axis.toNat slice.toNat (fixels vol),
          (Int.toNat_of_nonneg ha0).symm, (Int.toNat_of_nonneg hs0).symm, ?_, ?_⟩
        · rw [loaded_indices, bucket_at_table, if_pos ⟨ha3, hsd⟩]
        · simp only [Option.some.injEq] at hcall hd
          rw [← hd, ← hcall]
      · cases hcall

/-- C11, amended, at the scenario volume: without cropping the two calls cover
the buckets `[0, 2]` and `[4]` of axis 0; cropped to slice 1 of axis 1 the one
call covers the bucket `[0, 2]`. -/
theorem render_draw_calls_witness :
    (∃ cmds, render (loaded (scenarioVolume .xyz)) (settings false 1) 0 0 = some cmds ∧
      multi_draws cmds = [[0, 2], [4]].map bucket_call) ∧
    (∃ cmds, render (loaded (scenarioVolume .xyz)) (settings true 1) 1 1 = some cmds ∧
      multi_draws cmds = [bucket_call [0, 2]]) := by
  obtain ⟨img, hc, _, hr⟩ := render_draw_calls (scenarioVolume .xyz)
  have himg : img = loaded (scenarioVolume .xyz) := by
    rw [construct_eq] at hc
    exact (Option.some.inj hc).symm
  subst himg
  constructor
  · have h : (render (loaded (scenarioVolume .xyz)) (settings false 1) 0 0).isSome = true := by
      decide
    obtain ⟨cmds, hcm⟩ := Option.isSome_iff_exists.mp h
    obtain ⟨buckets, hb, _, hm⟩ := (hr (settings false 1) 0 0 cmds hcm).1 rfl
    have hb2 : (loaded (scenarioVolume .xyz)).slice_fixel_indices[0]? = some [[0, 2], [4]] := by
      decide
    rw [hb2] at hb
    rw [← Option.some.inj hb] at hm
    exact ⟨cmds, hcm, hm⟩
  · have h : (render (loaded (scenarioVolume .xyz)) (settings true 1) 1 1).isSome = true := by
      decide
    obtain ⟨cmds, hcm⟩ := Option.isSome_iff_exists.mp h
    obtain ⟨a, s, bucket, ha, hs, hb, hm⟩ := (hr (settings true 1) 1 1 cmds hcm).2 rfl
    have ha1 : a = 1 := by omega
    have hs1 : s = 1 := by omega
    subst ha1 hs1
    have hb2 : bucket_at (loaded (scenarioVolume .xyz)).slice_fixel_indices 1 1 =
        some [0, 2] := by decide
    rw [hb2] at hb
    rw [← Option.some.inj hb] at hm
    exact ⟨cmds, hcm, hm⟩

/-! ## The vertex program -/

theorem string_append_data (a b : String) : (a ++ b).data = a.data ++ b.data := rfl

theorem string_eq_of_data (a b : String) (h : a.data = b.data) : a = b := by
  cases a; cases b; simp_all

set_option maxRecDepth 100000 in
/-- C12: in mode `Value`, with the active colour map `map` of the table, the
vertex source is a fixed head without any amplitude statement, then the
amplitude statement exactly when the map is not special, with the clamped
expression prefixed by `1.0 -` exactly when the scale is inverted, then
`vec3 color;`, the mapping text of the map and `fragmentColour = color;`.  In
the modes `Colour` and `Direction` the source is the same whatever the table
of colour maps, and holds neither an amplitude statement nor `vec3 color;`. -/
theorem vertex_source_colouring :
    occurrences "amplitude" value_mode_head = [] ∧
    (∀ special inverted : Bool,
      (occurrences "float amplitude = clamp (" (amplitude_statement special inverted) ≠ [] ↔
        special = false) ∧
      (occurrences " scale * (value_out - offset), 0.0, 1.0);"
        (amplitude_statement special inverted) ≠ [] ↔ special = false) ∧
      (occurrences "clamp (1.0 -" (amplitude_statement special inverted) ≠ [] ↔
        special = false ∧ inverted = true)) ∧
    (∀ (sh : Shader) (maps : List ColourMapEntry) (fixel : FixelSettings) (map : ColourMapEntry),
      sh.color_type = .Value → maps[sh.base.colourmap]? = some map →
      sh.vertex_shader_source maps fixel =
        some (value_mode_head ++
          amplitude_statement map.special fixel.base.flags.scale_inverted ++
          "  vec3 color;\n" ++ map.mapping ++ "  fragmentColour = color;\n" ++ "\x7d\n")) ∧
    (∀ (sh : Shader) (maps : List ColourMapEntry) (fixel : FixelSettings),
      sh.color_type ≠ .Value →
      ∃ src, sh.vertex_shader_source maps fixel = some src ∧
        sh.vertex_shader_source [] fixel = some src ∧
        occurrences "amplitude" src = [] ∧ occurrences "vec3 color;" src = []) := by
  refine ⟨by decide, ?_, ?_, ?_⟩
  · intro special inverted
    cases special <;> cases inverted <;> decide
  · intro sh maps fixel map hmode hmap
    unfold Shader.vertex_shader_source
    simp only [hmode, hmap]
    rcases Bool.eq_false_or_eq_true map.special with hsp | hsp <;>
    rcases Bool.eq_false_or_eq_true fixel.base.flags.scale_inverted with hinv | hinv <;>
    simp only [hsp, hinv, amplitude_statement, value_mode_head, Bool.not_true, Bool.not_false,
      if_true, if_false, Bool.false_eq_true, Option.some.injEq] <;>
    apply string_eq_of_data <;>
    simp only [string_append_data, List.append_assoc] <;>
    rfl
  · intro sh maps fixel hmode
    unfold Shader.vertex_shader_source
    cases hct : sh.color_type with
    | Value => exact absurd hct hmode
    | Colour => exact ⟨_, rfl, rfl, by decide, by decide⟩
    | Direction => exact ⟨_, rfl, rfl, by decide, by decide⟩

/-- C12, at a shader of mode `Value` on the second map of a table of two maps
that are not special, with the scale not inverted. -/
theorem vertex_source_colouring_witness :
    (valueShader 1).color_type = .Value ∧
    twoMaps[(valueShader 1).base.colourmap]? = some hotMap ∧
    (valueShader 1).vertex_shader_source twoMaps (settings false 1) =
      some (value_mode_head ++
        amplitude_statement hotMap.special (settings false 1).base.flags.scale_inverted ++
        "  vec3 color;\n" ++ hotMap.mapping ++ "  fragmentColour = color;\n" ++ "\x7d\n") :=
  ⟨rfl, rfl,
    vertex_source_colouring.2.2.1 (valueShader 1) twoMaps (settings false 1) hotMap rfl rfl⟩

/-! ## Determinism of the shader sources -/

set_option maxRecDepth 100000 in
/-- C13, refuted as stated: two builds of mode `Value` against the same table,
with equal clip flags, equal scale inversion and both on a map that is not
special, but on different maps of the table, give different vertex sources. -/
theorem vertex_source_depends_on_map :
    (valueShader 0).color_type = (valueShader 1).color_type ∧
    (valueShader 0).base.flags = (valueShader 1).base.flags ∧
    (twoMaps[(valueShader 0).base.colourmap]?).map ColourMapEntry.special =
      (twoMaps[(valueShader 1).base.colourmap]?).map ColourMapEntry.special ∧
    (valueShader 0).vertex_shader_source twoMaps (settings false 1) ≠
      (valueShader 1).vertex_shader_source twoMaps (settings false 1) := by
  refine ⟨rfl, rfl, rfl, ?_⟩
  decide

/-- C13, amended: two builds against the same table of colour maps whose
rendering mode, scale inversion and, in mode `Value`, active entry of the table
(special flag and mapping text) are equal have the same vertex source; two
builds whose lower and upper clip flags are equal have the same fragment
source. -/
theorem shader_sources_deterministic :
    (∀ (sh sh1 : Shader) (maps : List ColourMapEntry) (fixel fixel1 : FixelSettings),
      sh.color_type = sh1.color_type →
      fixel.base.flags.scale_inverted = fixel1.base.flags.scale_inverted →
      (sh.color_type = .Value → maps[sh.base.colourmap]? = maps[sh1.base.colourmap]?) →
      sh.vertex_shader_source maps fixel = sh1.vertex_shader_source maps fixel1) ∧
    (∀ fixel fixel1 : FixelSettings,
      fixel.base.flags.discard_lower = fixel1.base.flags.discard_lower →
      fixel.base.flags.discard_upper = fixel1.base.flags.discard_upper →
      Shader.fragment_shader_source fixel = Shader.fragment_shader_source fixel1) := by
  constructor
  · intro sh sh1 maps fixel fixel1 hmode hinv hmap
    unfold Shader.vertex_shader_source
    rw [← hmode, ← hinv]
    cases hct : sh.color_type with
    | Value => simp only [hmap hct]
    | Colour => rfl
    | Direction => rfl
  · intro fixel fixel1 hlo hup
    unfold Shader.fragment_shader_source
    rw [hlo, hup]

/-- C13, amended, at two shaders of mode `Value` that both sit on the first map
of the table, for objects that differ only in the line opacity of their tool. -/
theorem shader_sources_deterministic_witness :
    (valueShader 0).vertex_shader_source twoMaps (settings false 1) =
      (valueShader 0).vertex_shader_source twoMaps (settings true (1 / 2)) ∧
    Shader.fragment_shader_source (settings false 1) =
      Shader.fragment_shader_source (settings true (1 / 2)) :=
  ⟨shader_sources_deterministic.1 (valueShader 0) (valueShader 0) twoMaps (settings false 1)
      (settings true (1 / 2)) rfl rfl (fun _ => rfl),
    shader_sources_deterministic.2 (settings false 1) (settings true (1 / 2)) rfl rfl⟩

/-! ## The pipeline state at the draw calls -/

theorem states_at_draws_append (c : Collaborators) (l1 l2 : List GLCmd) :
    ∀ s, states_at_draws c s (l1 ++ l2) =
      states_at_draws c s l1 ++ states_at_draws c (run c s l1) l2 := by
  induction l1 with
  | nil => intro s; rfl
  | cons cmd l1 ih =>
    intro s
    have hrun : run c s (cmd :: l1) = run c (exec c s cmd) l1 := rfl
    rw [List.cons_append]
    simp only [states_at_draws]
    rw [ih, hrun, List.append_assoc]

theorem states_at_draws_no_draw (c : Collaborators) (l : List GLCmd)
    (h : l.filter is_draw = []) : ∀ s, states_at_draws c s l = [] := by
  induction l with
  | nil => intro s; rfl
  | cons cmd l ih =>
    intro s
    have hc : is_draw cmd = false := by
      by_contra hd
      simp only [Bool.not_eq_false] at hd
      simp [List.filter_cons, hd] at h
    have hl : l.filter is_draw = [] := by
      simpa [List.filter_cons, hc] using h
    simp [states_at_draws, hc, ih hl]

theorem states_at_draws_calls (c : Collaborators) (calls : List GLCmd)
    (h : ∀ cmd, cmd ∈ calls → ∃ first count drawcount,
      cmd = .MultiDrawArrays first count drawcount) :
    ∀ s t, t ∈ states_at_draws c s calls → t = s := by
  induction calls with
  | nil => intro s t ht; cases ht
  | cons cmd calls ih =>
    intro s t ht
    obtain ⟨f, n, k, rfl⟩ := h _ (List.mem_cons_self _ _)
    simp only [states_at_draws, is_draw, if_true, List.singleton_append, List.mem_cons,
      exec] at ht
    rcases ht with rfl | ht
    · rfl
    · exact ih (fun x hx => h x (List.mem_cons_of_mem _ hx)) s t ht

theorem states_at_draws_length (c : Collaborators) (l : List GLCmd) :
    ∀ s, (states_at_draws c s l).length = (multi_draws l).length := by
  induction l with
  | nil => intro s; rfl
  | cons cmd l ih =>
    intro s
    unfold multi_draws at ih ⊢
    cases hd : is_draw cmd <;> simp [states_at_draws, List.filter_cons, hd, ih]

theorem render_setup_no_draw (img : FixelImage) (fixel : FixelSettings) :
    (render_setup img fixel).filter is_draw = [] := by
  unfold render_setup
  simp only [List.filter_append]
  split_ifs <;> rfl

theorem render_finish_no_draw (fixel : FixelSettings) :
    (render_finish fixel).filter is_draw = [] := by
  unfold render_finish
  simp only [List.filter_append]
  split_ifs <;> rfl

/-- C14: the pipeline state in which `render` issues each of its draw calls is
the state after its setup calls, and in that state, whatever the state before
the call and whatever `Displayable::start` and `Projection::set` do: with a
line opacity below 1 blending is enabled with the function (CONSTANT_ALPHA,
ONE), the equation FUNC_ADD and the opacity as alpha of the blend colour, and
depth test and depth writes are disabled; otherwise blending is disabled and
depth test and depth writes are enabled; and the line width is the line
thickness of the tool. -/
theorem draw_state (c : Collaborators) (img : FixelImage) (fixel : FixelSettings)
    (s : GLState) :
    (fixel.fixel_tool.line_opacity < 1 →
      (run c s (render_setup img fixel)).blend = true ∧
      (run c s (render_setup img fixel)).blend_func = (.CONSTANT_ALPHA, .ONE) ∧
      (run c s (render_setup img fixel)).blend_equation = .FUNC_ADD ∧
      (run c s (render_setup img fixel)).blend_color.2.2.2 = fixel.fixel_tool.line_opacity ∧
      (run c s (render_setup img fixel)).depth_test = false ∧
      (run c s (render_setup img fixel)).depth_mask = false) ∧
    (¬ fixel.fixel_tool.line_opacity < 1 →
      (run c s (render_setup img fixel)).blend = false ∧
      (run c s (render_setup img fixel)).depth_test = true ∧
      (run c s (render_setup img fixel)).depth_mask = true) ∧
    (run c s (render_setup img fixel)).line_width = fixel.fixel_tool.line_thickness ∧
    ∀ (axis slice : Int) (cmds : List GLCmd), render img fixel axis slice = some cmds →
      ∀ t, t ∈ states_at_draws c s cmds → t = run c s (render_setup img fixel) := by
  refine ⟨?_, ?_, ?_, ?_⟩
  · intro hop
    unfold render_setup
    simp only [hop, if_true, run_append]
    simp [run, exec]
  · intro hop
    unfold render_setup
    simp only [hop, if_false, run_append]
    simp [run, exec]
  · unfold render_setup
    simp only [run_append]
    simp [run, exec]
  · intro axis slice cmds h t ht
    unfold render at h
    split at h
    · cases h
    · rename_i calls hcalls
      simp only [Option.some.injEq] at h
      subst h
      have hshape := draw_calls_shape img fixel axis slice calls hcalls
      rw [states_at_draws_append, states_at_draws_append,
        states_at_draws_no_draw c _ (render_setup_no_draw img fixel),
        states_at_draws_no_draw c _ (render_finish_no_draw fixel), List.nil_append,
        List.append_nil] at ht
      exact states_at_draws_calls c calls hshape _ t ht

/-- C14, at the scenario volume cropped to slice 1 of axis 1, starting from a
translucent state with line width 3: with opacity 1/2 the one draw call is
issued with blending on, alpha 1/2, depth test and depth writes off and line
width 1; with opacity 1 with blending off and depth test and depth writes on. -/
theorem draw_state_witness :
    ((1 : ℚ) / 2 < 1) ∧ ¬ ((1 : ℚ) < 1) ∧
    (∃ cmds t, render (loaded (scenarioVolume .xyz)) (settings true (1 / 2)) 1 1 = some cmds ∧
      states_at_draws inertCollaborators translucentState cmds = [t] ∧
      t.blend = true ∧ t.blend_color.2.2.2 = 1 / 2 ∧ t.depth_test = false ∧
      t.depth_mask = false ∧ t.line_width = 1) ∧
    (∃ cmds t, render (loaded (scenarioVolume .xyz)) (settings true 1) 1 1 = some cmds ∧
      states_at_draws inertCollaborators translucentState cmds = [t] ∧
      t.blend = false ∧ t.depth_test = true ∧ t.depth_mask = true ∧ t.line_width = 1) := by
  have hlt : ((1 : ℚ) / 2 < 1) := by norm_num
  have hge : ¬ ((1 : ℚ) < 1) := by norm_num
  refine ⟨hlt, hge, ?_, ?_⟩
  · obtain ⟨h1, _, h3, h4⟩ := draw_state inertCollaborators (loaded (scenarioVolume .xyz))
      (settings true (1 / 2)) translucentState
    obtain ⟨hb, _, _, hc, hd, hm⟩ := h1 hlt
    have h : (render (loaded (scenarioVolume .xyz)) (settings true (1 / 2)) 1 1).isSome = true := by
      decide
    obtain ⟨cmds, hcm⟩ := Option.isSome_iff_exists.mp h
    have hdc : draw_calls (loaded (scenarioVolume .xyz)) (settings true (1 / 2)) 1 1 =
        some [bucket_call [0, 2]] := by decide
    have hmd := multi_draws_render _ _ _ _ cmds hcm
    rw [hdc] at hmd
    have hq : (states_at_draws inertCollaborators translucentState cmds).length = 1 := by
      rw [states_at_draws_length, ← Option.some.inj hmd]
      rfl
    obtain ⟨t, ht⟩ := List.length_eq_one.mp hq
    have heq := h4 1 1 cmds hcm t (by rw [ht]; exact List.mem_singleton_self t)
    subst heq
    exact ⟨cmds, _, hcm, ht, hb, hc, hd, hm, h3⟩
  · obtain ⟨_, h2, h3, h4⟩ := draw_state inertCollaborators (loaded (scenarioVolume .xyz))
      (settings true 1) translucentState
    obtain ⟨hb, hd, hm⟩ := h2 hge
    have h : (render (loaded (scenarioVolume .xyz)) (settings true 1) 1 1).isSome = true := by
      decide
    obtain ⟨cmds, hcm⟩ := Option.isSome_iff_exists.mp h
    have hdc : draw_calls (loaded (scenarioVolume .xyz)) (settings true 1) 1 1 =
        some [bucket_call [0, 2]] := by decide
    have hmd := multi_draws_render _ _ _ _ cmds hcm
    rw [hdc] at hmd
    have hq : (states_at_draws inertCollaborators translucentState cmds).length = 1 := by
      rw [states_at_draws_length, ← Option.some.inj hmd]
      rfl
    obtain ⟨t, ht⟩ := List.length_eq_one.mp hq
    have heq := h4 1 1 cmds hcm t (by rw [ht]; exact List.mem_singleton_self t)
    subst heq
    exact ⟨cmds, _, hcm, ht, hb, hd, hm, h3⟩

/-! ## The three sequences of a bucket stay parallel -/

theorem offsetsAt_mem (a s : Nat) (es : List (Voxel × FixelElement)) (off : Nat)
    (h : off ∈ offsetsAt a s es) : ∃ k, k < es.length ∧ off = 2 * k := by
  unfold offsetsAt at h
  simp only [List.mem_map, List.mem_filter] at h
  obtain ⟨p, ⟨hp, _⟩, rfl⟩ := h
  have hget := List.mem_enum_iff_getElem?.mp hp
  have hlt : p.1 < es.length := by
    rcases Nat.lt_or_ge p.1 es.length with h1 | h1
    · exact h1
    · rw [List.getElem?_eq_none h1] at hget
      cases hget
  exact ⟨p.1, hlt, rfl⟩

/-- C16: for every fixel volume, every axis `a` and every slice `s` of it, after
`load_image` the bucket `(a, s)` has as many start offsets and as many draw
lengths as its count says, every draw length is 2, and every start offset is
even and leaves at least four entries of the buffer from it on, so that the
range of two vertices is a whole segment. -/
theorem bucket_sequences_parallel (vol : FixelVolume) (a : Fin 3) (s : Nat)
    (hs : s < vol.dim a) :
    ∃ img indices sizes count, construct vol = some img ∧
      bucket_at img.slice_fixel_indices a s = some indices ∧
      bucket_at img.slice_fixel_sizes a s = some sizes ∧
      bucket_at img.slice_fixel_counts a s = some count ∧
      indices.length = count ∧ sizes.length = count ∧
      (∀ n, n ∈ sizes → n = 2) ∧
      ∀ off, off ∈ indices → off % 2 = 0 ∧ off + 4 ≤ img.buffer.length := by
  refine ⟨loaded vol, offsetsAt a s (fixels vol),
    List.replicate (countAt a s (fixels vol)) 2, countAt a s (fixels vol), construct_eq vol,
    ?_, ?_, ?_, offsetsAt_length _ _ _, List.length_replicate _ _, ?_, ?_⟩
  · rw [loaded_indices, bucket_at_table, if_pos ⟨a.isLt, hs⟩]
  · rw [loaded_sizes, bucket_at_table, if_pos ⟨a.isLt, hs⟩]
  · rw [loaded_counts, bucket_at_table, if_pos ⟨a.isLt, hs⟩]
  · intro n hn
    exact (List.mem_replicate.mp hn).2
  · intro off hoff
    obtain ⟨k, hk, rfl⟩ := offsetsAt_mem _ _ _ off hoff
    have hlen := segments_length vol (fixels vol)
    refine ⟨by omega, ?_⟩
    rw [loaded_buffer]
    simp only [List.length_append, List.length_cons, List.length_nil]
    omega

/-- C16, at slice 0 of axis 0 of the scenario volume, whose bucket holds the two
fixels of voxel (0,1,0): offsets 0 and 2 in a buffer of length 8. -/
theorem bucket_sequences_parallel_witness :
    0 < (scenarioVolume .xyz).dim (0 : Fin 3) ∧
    ∃ img, construct (scenarioVolume .xyz) = some img ∧
      bucket_at img.slice_fixel_indices 0 0 = some [0, 2] ∧
      bucket_at img.slice_fixel_sizes 0 0 = some [2, 2] ∧
      bucket_at img.slice_fixel_counts 0 0 = some 2 ∧
      ∀ off, off ∈ [0, 2] → off % 2 = 0 ∧ off + 4 ≤ img.buffer.length := by
  refine ⟨by decide, ?_⟩
  obtain ⟨img, indices, sizes, count, hc, hi, hz, hn, _, _, _, hoff⟩ :=
    bucket_sequences_parallel (scenarioVolume .xyz) 0 0 (by decide)
  have himg : img = loaded (scenarioVolume .xyz) := by
    rw [construct_eq] at hc
    exact (Option.some.inj hc).symm
  subst himg
  have hi2 : bucket_at (loaded (scenarioVolume .xyz)).slice_fixel_indices 0 0 = some [0, 2] := by
    decide
  have hz2 : bucket_at (loaded (scenarioVolume .xyz)).slice_fixel_sizes 0 0 = some [2, 2] := by
    decide
  have hn2 : bucket_at (loaded (scenarioVolume .xyz)).slice_fixel_counts 0 0 = some 2 := by
    decide
  have hie : indices = [0, 2] := by
    have h := hi.symm.trans hi2
    exact Option.some.inj h
  subst hie
  exact ⟨_, hc, hi2, hz2, hn2, hoff⟩

/-! ## The value seen by the fragment program -/

theorem run_vertex_fixel (vol : FixelVolume) (k : Nat) (v : Voxel) (e : FixelElement)
    (h : (fixels vol)[k]? = some (v, e)) :
    run_vertex (loaded vol) (2 * k) = some (vol.voxel2scanner v, e.dir.scale e.value) ∧
    run_vertex (loaded vol) (2 * k + 1) =
      some (vol.voxel2scanner v, (e.dir.scale e.value).neg) := by
  have hk : k < (fixels vol).length := by
    rcases Nat.lt_or_ge k (fixels vol).length with h1 | h1
    · exact h1
    · rw [List.getElem?_eq_none h1] at h
      cases h
  obtain ⟨hpos, hdir⟩ := loaded_buffer_getElem? vol k v e h
  obtain ⟨prev, hprev⟩ := loaded_buffer_prev vol k hk
  obtain ⟨next, hnext⟩ := loaded_buffer_next vol k hk
  constructor
  · rw [run_vertex_loaded vol (2 * k) _ prev _ hprev hpos hdir]
    simp [vertex_main]
  · have hodd : (2 * k + 1) % 2 = 1 := by omega
    rw [run_vertex_loaded vol (2 * k + 1) _ _ next hpos hdir hnext]
    simp [vertex_main, hodd]

theorem length_sq_scale_unit (x y z v : ℚ) (hunit : x * x + y * y + z * z = 1) :
    ((Point.mk (.fin x) (.fin y) (.fin z)).scale (.fin v)).length_sq = some (v * v) ∧
    (((Point.mk (.fin x) (.fin y) (.fin z)).scale (.fin v)).neg).length_sq = some (v * v) := by
  simp only [Point.scale, Point.neg, FloatVal.mul, FloatVal.neg, Point.length_sq,
    Option.some.injEq]
  constructor
  · linear_combination (v * v) * hunit
  · linear_combination (v * v) * hunit

/-- C17: for every fixel with a unit direction `d` and a value `q`, both of
them numbers, the square of `value_out` is `q * q` at both vertices of its
segment, so `value_out`, its square root, is `|q|`, which equals `q` exactly
when `q` is not negative; and `load_image` seeds the clip thresholds
`lessthan` and `greaterthan` with `value_min` and `value_max`, the extremes of
the signed values. -/
theorem value_out_magnitude (vol : FixelVolume) :
    ∃ img, construct vol = some img ∧
      img.lessthan = img.value_min ∧ img.greaterthan = img.value_max ∧
      ∀ (k : Nat) (v : Voxel) (e : FixelElement) (x y z q : ℚ),
        (fixels vol)[k]? = some (v, e) → e.dir = .mk (.fin x) (.fin y) (.fin z) →
        e.value = .fin q → x * x + y * y + z * z = 1 →
        value_out_sq img (2 * k) = some (q * q) ∧
        value_out_sq img (2 * k + 1) = some (q * q) ∧
        Real.sqrt ((q * q : ℚ) : ℝ) = |(q : ℝ)| ∧
        (|q| = q ↔ 0 ≤ q) := by
  refine ⟨loaded vol, construct_eq vol, rfl, rfl, ?_⟩
  intro k v e x y z q h hdir hval hunit
  obtain ⟨h0, h1⟩ := run_vertex_fixel vol k v e h
  obtain ⟨l0, l1⟩ := length_sq_scale_unit x y z q hunit
  refine ⟨?_, ?_, ?_, abs_eq_self⟩
  · simp only [value_out_sq, h0, hdir, hval, l0]
  · simp only [value_out_sq, h1, hdir, hval, l1]
  · push_cast
    exact Real.sqrt_mul_self_eq_abs _

/-- C17, at the first fixel visited in the scenario volume, of direction
(0,1,0) and value 2: the square of `value_out` is 4 at both vertices. -/
theorem value_out_magnitude_witness :
    (fixels (scenarioVolume .xyz))[0]? =
      some (⟨0, 1, 0⟩, ⟨.mk (.fin 0) (.fin 1) (.fin 0), .fin 2⟩) ∧
    ((0 : ℚ) * 0 + 1 * 1 + 0 * 0 = 1) ∧
    ∃ img, construct (scenarioVolume .xyz) = some img ∧
      value_out_sq img (2 * 0) = some (2 * 2) ∧ value_out_sq img (2 * 0 + 1) = some (2 * 2) := by
  have h0 : (fixels (scenarioVolume .xyz))[0]? =
      some (⟨0, 1, 0⟩, ⟨.mk (.fin 0) (.fin 1) (.fin 0), .fin 2⟩) := by decide
  have hu : ((0 : ℚ) * 0 + 1 * 1 + 0 * 0 = 1) := by norm_num
  obtain ⟨img, hc, _, _, hk⟩ := value_out_magnitude (scenarioVolume .xyz)
  obtain ⟨hv0, hv1, _, _⟩ :=
    hk 0 ⟨0, 1, 0⟩ ⟨.mk (.fin 0) (.fin 1) (.fin 0), .fin 2⟩ 0 1 0 2 h0 rfl rfl hu
  exact ⟨h0, hu, img, hc, hv0, hv1⟩

/-! ## `mrcat` -/

namespace mrcat

/-- C15, at a five-dimensional first image of sizes 2x2x2x1x3 followed by an
image of sizes 2x2x2, without the option `-axis`: `run ()` concatenates along
axis 3, while the largest axis on which an input has a size above one is the
axis 4 of the first image, so that `max (3, L)` is 4. -/
theorem default_axis_skips_first_image :
    run none ⟨[2, 2, 2, 1, 3]⟩ [⟨[2, 2, 2]⟩] = .ok ⟨3, [2, 2, 2, 2], [0, 1], 2⟩ ∧
    max 3 (largest_nonsingleton [⟨[2, 2, 2, 1, 3]⟩, ⟨[2, 2, 2]⟩]) = 4 :=
  ⟨rfl, by decide⟩

/-- C19, at the images of sizes 2x2x2x1x3 and 2x2x2x1x1 with `-axis 3`: the
second image differs from the first on axis 4, which is not the concatenation
axis and lies below one more than the largest last non-singleton axis of the
inputs, yet `run ()` throws nothing and creates an output of sizes 2x2x2x2. -/
theorem mismatch_beyond_scan_not_raised :
    run (some 3) ⟨[2, 2, 2, 1, 3]⟩ [⟨[2, 2, 2, 1, 1]⟩] = .ok ⟨3, [2, 2, 2, 2], [0, 1], 2⟩ ∧
    differs_on ⟨[2, 2, 2, 1, 3]⟩ ⟨[2, 2, 2, 1, 1]⟩ 4 = true ∧
    (4 : Int) ≠ 3 ∧
    (4 : Int) < largest_nonsingleton [⟨[2, 2, 2, 1, 3]⟩, ⟨[2, 2, 2, 1, 1]⟩] + 1 := by
  exact ⟨rfl, by decide, by decide, by decide⟩

/-- C18, at three images of sizes 1x1x1x1073741824, 1x1x1x1073741824 and
1x1x1x2, whose sizes are at least 1 and which agree on the axes 0, 1 and 2:
`axis_dim`, a `size_t`, sums the extents to 2147483650 and the output is
created with that size along axis 3, while `axis_offset`, an `int`, wraps: the
third image is written at the offset -2147483648, not at the sum 2147483648 of
the extents before it, and the final offset is -2147483646, not the output
size. -/
theorem axis_offset_overflows :
    run none ⟨[1, 1, 1, 1073741824]⟩ [⟨[1, 1, 1, 1073741824]⟩, ⟨[1, 1, 1, 2]⟩] =
      .ok ⟨3, [1, 1, 1, 2147483650], [0, 1073741824, -2147483648], -2147483646⟩ ∧
    (([⟨[1, 1, 1, 1073741824]⟩, ⟨[1, 1, 1, 1073741824]⟩] : List Image).map
      (extent_of 3)).sum = 2147483648 ∧
    (-2147483648 : Int) ≠ 2147483648 ∧ (-2147483646 : Int) ≠ 2147483650 :=
  ⟨rfl, by decide, by decide, by decide⟩

theorem to_int_id (x : Int) (h0 : 0 ≤ x) (h1 : x < 2147483648) : to_int x = x := by
  unfold to_int
  omega

theorem to_size_t_id (x : Int) (h0 : 0 ≤ x) (h1 : x < 2147483648) : to_size_t x = x := by
  unfold to_size_t
  omega

theorem to_ssize_t_id (x : Int) (h0 : 0 ≤ x) (h1 : x < 2147483648) : to_ssize_t x = x := by
  unfold to_ssize_t
  omega

theorem extent_of_pos (axis : Nat) (im : Image) (h : ∀ s, s ∈ im.sizes → 1 ≤ s) :
    1 ≤ extent_of axis im := by
  unfold extent_of
  cases hs : im.sizes[axis]? with
  | none => exact le_refl 1
  | some s => exact h s (List.getElem?_mem hs)

theorem extent_eq_extent_of (axis : Nat) (im : Image) (h : ∀ s, s ∈ im.sizes → 1 ≤ s) :
    extent axis im = extent_of axis im := by
  unfold extent extent_of
  cases hs : im.sizes[axis]? with
  | none => rfl
  | some s =>
    have h1 := h s (List.getElem?_mem hs)
    by_cases hgt : s > 1
    · simp [hgt]
    · have : s = 1 := by omega
      simp [this]

theorem extents_sum_nonneg (axis : Nat) (imgs : List Image)
    (h : ∀ im, im ∈ imgs → ∀ s, s ∈ im.sizes → 1 ≤ s) :
    0 ≤ (imgs.map (extent_of axis)).sum := by
  induction imgs with
  | nil => simp
  | cons im ims ih =>
    have h1 := extent_of_pos axis im (h im (List.mem_cons_self im ims))
    have h2 := ih fun x hx => h x (List.mem_cons_of_mem im hx)
    simp only [List.map_cons, List.sum_cons]
    omega

theorem copy_images_spec (axis : Nat) (imgs : List Image)
    (h : ∀ im, im ∈ imgs → ∀ s, s ∈ im.sizes → 1 ≤ s) :
    ∀ off : Int, 0 ≤ off → off + (imgs.map (extent_of axis)).sum < 2147483648 →
      copy_images axis imgs off =
        ((List.range imgs.length).map fun i => off + ((imgs.take i).map (extent_of axis)).sum,
          off + (imgs.map (extent_of axis)).sum) := by
  induction imgs with
  | nil => intro off _ _; simp [copy_images]
  | cons im ims ih =>
    intro off h0 hlt
    have hpos := extent_of_pos axis im (h im (List.mem_cons_self im ims))
    have hrest := extents_sum_nonneg axis ims fun x hx => h x (List.mem_cons_of_mem im hx)
    simp only [List.map_cons, List.sum_cons] at hlt
    have hnext : (match im.sizes[axis]? with
        | some s => to_int (off + s)
        | none => to_int (off + 1)) = off + extent_of axis im := by
      cases hs : im.sizes[axis]? with
      | none =>
        have hext : extent_of axis im = 1 := by simp [extent_of, hs]
        rw [hext] at hlt ⊢
        exact to_int_id _ (by omega) (by omega)
      | some s =>
        have hext : extent_of axis im = s := by simp [extent_of, hs]
        rw [hext] at hlt hpos ⊢
        exact to_int_id _ (by omega) (by omega)
    have hrec := ih (fun x hx => h x (List.mem_cons_of_mem im hx)) (off + extent_of axis im)
      (by omega) (by omega)
    unfold copy_images
    simp only [hnext, hrec, List.length_cons, List.map_cons, List.sum_cons]
    refine Prod.ext ?_ ?_
    · simp only [List.range_succ_eq_map, List.map_cons, List.map_map, List.take_zero,
        List.map_nil, List.sum_nil, add_zero, List.cons.injEq, true_and]
      apply List.map_congr_left
      intro i _
      simp only [Function.comp, List.take_succ_cons, List.map_cons, List.sum_cons]
      omega
    · simp only []
      omega

theorem axis_dim_fold (axis : Nat) (imgs : List Image)
    (h : ∀ im, im ∈ imgs → ∀ s, s ∈ im.sizes → 1 ≤ s) :
    ∀ acc : Int, 0 ≤ acc → acc + (imgs.map (extent_of axis)).sum < 2147483648 →
      imgs.foldl (fun acc im => to_size_t (acc + extent axis im)) acc =
        acc + (imgs.map (extent_of axis)).sum := by
  induction imgs with
  | nil => intro acc _ _; simp
  | cons im ims ih =>
    intro acc h0 hlt
    have hpos := extent_of_pos axis im (h im (List.mem_cons_self im ims))
    have hrest := extents_sum_nonneg axis ims fun x hx => h x (List.mem_cons_of_mem im hx)
    simp only [List.map_cons, List.sum_cons] at hlt
    have he := extent_eq_extent_of axis im (h im (List.mem_cons_self im ims))
    simp only [List.foldl_cons, List.map_cons, List.sum_cons, he]
    rw [to_size_t_id _ (by omega) (by omega),
      ih (fun x hx => h x (List.mem_cons_of_mem im hx)) _ (by omega) (by omega)]
    omega

theorem fill_axis_length (inputs : List Image) (header : List Int) (i : Nat) :
    (fill_axis inputs header i).length = header.length := by
  unfold fill_axis
  split
  · rfl
  · split
    · split <;> simp
    · rfl

theorem fill_length (inputs : List Image) (header : List Int) :
    (fill inputs header).length = header.length := by
  unfold fill
  generalize List.range header.length = l
  induction l generalizing header with
  | nil => rfl
  | cons i l ih =>
    rw [List.foldl_cons, ih, fill_axis_length]

theorem choose_axis_nonneg (axis_option : Option Nat) (others : List Image) (axis ndims : Int)
    (h : choose_axis axis_option others = .ok (axis, ndims)) : 0 ≤ axis := by
  unfold choose_axis at h
  cases hs : scan_dims others 0 with
  | error e => simp [hs] at h
  | ok d =>
    simp only [hs, Except.ok.injEq, Prod.mk.injEq] at h
    obtain ⟨h1, _⟩ := h
    cases axis_option with
    | none =>
      have hneg : ((-1 : Int) < 0) := by decide
      simp only [hneg, if_true] at h1
      rw [← h1]
      exact le_trans (by decide) (le_max_left 3 d)
    | some a =>
      have hnn : ¬ ((a : Int) < 0) := by omega
      simp only [hnn, if_false] at h1
      omega

theorem run_tiles (axis_option : Option Nat) (first : Image) (others : List Image)
    (out : Output) (hrun : run axis_option first others = .ok out)
    (hsizes : ∀ im, im ∈ first :: others → ∀ s, s ∈ im.sizes → 1 ≤ s)
    (hfit : ((first :: others).map (extent_of out.axis.toNat)).sum < 2147483648) :
    0 ≤ out.axis ∧
    out.header_out[out.axis.toNat]? =
      some ((first :: others).map (extent_of out.axis.toNat)).sum ∧
    out.offsets = (List.range (others.length + 1)).map (fun i =>
      (((first :: others).take i).map (extent_of out.axis.toNat)).sum) ∧
    out.axis_offset = ((first :: others).map (extent_of out.axis.toNat)).sum := by
  unfold run at hrun
  split at hrun
  · cases hrun
  · rename_i axis ndims hchoose
    split at hrun
    · cases hrun
    · simp only [Except.ok.injEq] at hrun
      subst hrun
      simp only at hfit ⊢
      have haxis := choose_axis_nonneg axis_option others axis ndims hchoose
      have hnn := extents_sum_nonneg axis.toNat (first :: others) hsizes
      have hcopy := copy_images_spec axis.toNat (first :: others) hsizes 0 (le_refl 0)
        (by omega)
      have hdim : axis_dim axis.toNat (first :: others) =
          ((first :: others).map (extent_of axis.toNat)).sum := by
        unfold axis_dim
        rw [axis_dim_fold axis.toNat (first :: others) hsizes 0 (le_refl 0) (by omega)]
        omega
      refine ⟨haxis, ?_, ?_, ?_⟩
      · have hlen : axis.toNat < (fill (first :: others) (set_ndim first.sizes
            (if axis ≥ ndims then axis + 1 else ndims).toNat)).length := by
          rw [fill_length]
          unfold set_ndim resize
          simp only [List.length_append, List.length_take, List.length_replicate]
          split_ifs with hge <;> omega
        rw [List.getElem?_set_self hlen, hdim, to_ssize_t_id _ hnn hfit]
      · rw [hcopy]
        simp only [List.length_cons, zero_add]
      · rw [hcopy]
        simp only [zero_add]

theorem size_natCast (im : Image) (k : Nat) :
    im.size (k : Int) =
      match im.sizes[k]? with
      | some s => .ok s
      | none => .error .fault := by
  have : ¬ ((k : Int) < 0) := by omega
  simp [Image.size, this]

theorem last_dim_loop_ok (im : Image) (k : Nat) (hk : k ≤ im.sizes.length)
    (h : ∃ j s, j < k ∧ im.sizes[j]? = some s ∧ 1 < s) :
    ∃ r, last_dim_loop im k = .ok r ∧ 0 ≤ r ∧ r < k := by
  induction k with
  | zero =>
    obtain ⟨j, _, hj, _⟩ := h
    omega
  | succ k ih =>
    have hlt : k < im.sizes.length := by omega
    unfold last_dim_loop
    rw [size_natCast, List.getElem?_eq_getElem hlt]
    simp only
    by_cases hs : im.sizes[k] ≤ 1
    · have hk0 : (0 : Int) ≤ k := by omega
      rw [if_pos ⟨hs, hk0⟩]
      obtain ⟨j, s, hj, hjs, h1⟩ := h
      have hjk : j < k := by
        rcases Nat.lt_or_ge j k with h2 | h2
        · exact h2
        · have : j = k := by omega
          subst this
          rw [List.getElem?_eq_getElem hlt] at hjs
          simp only [Option.some.injEq] at hjs
          omega
      obtain ⟨r, hr, hr0, hrk⟩ := ih (by omega) ⟨j, s, hjk, hjs, h1⟩
      exact ⟨r, hr, hr0, by omega⟩
    · have : ¬ (im.sizes[k] ≤ 1 ∧ (0 : Int) ≤ k) := fun hc => hs hc.1
      rw [if_neg this]
      exact ⟨k, rfl, by omega, by omega⟩

theorem scan_dims_ok (n : Nat) (others : List Image)
    (h : ∀ im, im ∈ others → im.sizes.length = n ∧ ∃ s, s ∈ im.sizes ∧ 1 < s) :
    ∀ nd : Int, 0 ≤ nd → nd + 1 ≤ max (n : Int) 1 →
      ∃ d, scan_dims others nd = .ok d ∧ 0 ≤ d ∧ d + 1 ≤ max (n : Int) 1 := by
  induction others with
  | nil => intro nd h0 h1; exact ⟨nd, rfl, h0, h1⟩
  | cons im ims ih =>
    intro nd h0 h1
    obtain ⟨hlen, s, hs, hs1⟩ := h im (List.mem_cons_self im ims)
    obtain ⟨j, hj, hjs⟩ := List.getElem_of_mem hs
    have hget : im.sizes[j]? = some s := by
      rw [List.getElem?_eq_getElem hj, hjs]
    obtain ⟨r, hr, hr0, hrk⟩ := last_dim_loop_ok im im.sizes.length (le_refl _)
      ⟨j, s, hj, hget, hs1⟩
    unfold scan_dims
    simp only [Image.ndim, hr]
    apply ih (fun x hx => h x (List.mem_cons_of_mem im hx))
    · split_ifs <;> omega
    · have hmax : (n : Int) ≤ max (n : Int) 1 := le_max_left _ _
      split_ifs <;> omega

theorem check_axis_ok (first : Image) (i : Nat) (a : Int) (hfirst : first.sizes[i]? = some a)
    (imgs : List Image) (h : ∀ im, im ∈ imgs → im.sizes[i]? = some a) :
    check_axis first i imgs = .ok () := by
  induction imgs with
  | nil => rfl
  | cons im ims ih =>
    unfold check_axis
    rw [size_natCast, size_natCast, hfirst, h im (List.mem_cons_self im ims)]
    simp only [ne_eq, not_true_eq_false, if_false]
    exact ih fun x hx => h x (List.mem_cons_of_mem im hx)

theorem check_dims_ok (first : Image) (inputs : List Image) (axis : Int) (axes : List Nat)
    (h : ∀ i, i ∈ axes → (i : Int) ≠ axis →
      ∃ a, first.sizes[i]? = some a ∧ ∀ im, im ∈ inputs → im.sizes[i]? = some a) :
    check_dims first inputs axis axes = .ok () := by
  induction axes with
  | nil => rfl
  | cons i axes ih =>
    have hrec := ih fun j hj => h j (List.mem_cons_of_mem i hj)
    unfold check_dims
    by_cases hi : (i : Int) ≠ axis
    · obtain ⟨a, ha, hall⟩ := h i (List.mem_cons_self i axes) hi
      rw [if_pos hi, check_axis_ok first i a ha inputs hall]
      exact hrec
    · rw [if_neg hi]
      exact hrec

theorem run_returns (axis_option : Option Nat) (first : Image) (others : List Image)
    (hfirst : 0 < first.sizes.length)
    (h : ∀ im, im ∈ others → im.sizes.length = first.sizes.length ∧
      (∃ s, s ∈ im.sizes ∧ 1 < s) ∧
      ∀ i, axis_option ≠ some i → im.sizes[i]? = first.sizes[i]?) :
    ∃ out, run axis_option first others = .ok out := by
  obtain ⟨d, hd, hd0, hdn⟩ := scan_dims_ok first.sizes.length others
    (fun im him => ⟨(h im him).1, (h im him).2.1⟩) 0 (le_refl 0) (by omega)
  have hmax : max (first.sizes.length : Int) 1 = first.sizes.length := by omega
  rw [hmax] at hdn
  unfold run choose_axis
  simp only [hd]
  have hcheck : ∀ axis : Int, (∀ i : Nat, (i : Int) ≠ axis → axis_option ≠ some i) →
      check_dims first (first :: others) axis (List.range (d + 1).toNat) = .ok () := by
    intro axis hax
    apply check_dims_ok
    intro i hi hne
    have hil : i < first.sizes.length := by
      have := List.mem_range.mp hi
      omega
    refine ⟨first.sizes[i], List.getElem?_eq_getElem hil, ?_⟩
    intro im him
    rcases List.mem_cons.mp him with rfl | him
    · exact List.getElem?_eq_getElem hil
    · rw [(h im him).2.2 i (hax i hne)]
      exact List.getElem?_eq_getElem hil
  cases axis_option with
  | none =>
    simp only
    rw [hcheck _ (fun i _ hc => by cases hc)]
    exact ⟨_, rfl⟩
  | some a =>
    simp only
    rw [hcheck _ (fun i hne hc => by
      have hai : a = i := Option.some.inj hc
      have hnn : ¬ ((a : Int) < 0) := by omega
      apply hne
      simp only [hnn, if_false]
      omega)]
    exact ⟨_, rfl⟩

theorem last_dim_loop_eq (im : Image) (k : Nat) (hk : k ≤ im.sizes.length) (r : Int)
    (h : last_dim_loop im k = .ok r) :
    r = (List.range k).foldl
      (fun acc i => if im.sizes.getD i 0 > 1 then (i : Int) else acc) (-1) := by
  induction k with
  | zero =>
    unfold last_dim_loop at h
    simp [Image.size] at h
  | succ k ih =>
    have hlt : k < im.sizes.length := by omega
    have hget : im.sizes.getD k 0 = im.sizes[k] := by
      simp [List.getD, List.getElem?_eq_getElem hlt]
    unfold last_dim_loop at h
    rw [size_natCast, List.getElem?_eq_getElem hlt] at h
    simp only at h
    rw [List.range_succ, List.foldl_append, List.foldl_cons, List.foldl_nil, hget]
    by_cases hs : im.sizes[k] ≤ 1
    · have hk0 : (0 : Int) ≤ k := by omega
      rw [if_pos ⟨hs, hk0⟩] at h
      have hng : ¬ (im.sizes[k] > 1) := by omega
      rw [if_neg hng]
      exact ih (by omega) h
    · have hneg : ¬ (im.sizes[k] ≤ 1 ∧ (0 : Int) ≤ k) := fun hc => hs hc.1
      rw [if_neg hneg] at h
      have hg : im.sizes[k] > 1 := by omega
      rw [if_pos hg]
      simp only [Except.ok.injEq] at h
      exact h.symm

theorem scan_dims_eq (others : List Image) :
    ∀ nd d : Int, scan_dims others nd = .ok d →
      d = (others.map last_nonsingleton).foldl max nd := by
  induction others with
  | nil =>
    intro nd d h
    simp only [scan_dims, Except.ok.injEq] at h
    simp [h]
  | cons im ims ih =>
    intro nd d h
    unfold scan_dims at h
    split at h
    · cases h
    · rename_i last hlast
      have hl := last_dim_loop_eq im im.sizes.length (le_refl _) last hlast
      have hmax : (if last > nd then last else nd) = max nd (last_nonsingleton im) := by
        unfold last_nonsingleton
        rw [← hl]
        split_ifs with hgt
        · exact (max_eq_right (le_of_lt hgt)).symm
        · exact (max_eq_left (not_lt.mp hgt)).symm
      rw [hmax] at h
      simpa using ih _ d h

theorem default_axis_eq (others : List Image) (axis ndims : Int)
    (h : choose_axis none others = .ok (axis, ndims)) :
    axis = max 3 ((others.map last_nonsingleton).foldl max 0) ∧
    ndims = (others.map last_nonsingleton).foldl max 0 + 1 := by
  unfold choose_axis at h
  cases hs : scan_dims others 0 with
  | error e => simp [hs] at h
  | ok d =>
    have hd := scan_dims_eq others 0 d hs
    simp only [hs, Except.ok.injEq, Prod.mk.injEq] at h
    obtain ⟨h1, h2⟩ := h
    have hneg : ((-1 : Int) < 0) := by decide
    simp only [hneg, if_true] at h1
    rw [← h1, ← h2, hd]
    exact ⟨rfl, rfl⟩

theorem check_axis_mismatch (first : Image) (i : Nat) (a : Int)
    (hfirst : first.sizes[i]? = some a) (imgs : List Image)
    (hin : ∀ im, im ∈ imgs → i < im.sizes.length)
    (h : ∃ im, im ∈ imgs ∧ im.sizes[i]? ≠ some a) :
    check_axis first i imgs = .error (.exception mismatch) := by
  induction imgs with
  | nil =>
    obtain ⟨im, him, _⟩ := h
    cases him
  | cons im ims ih =>
    have hlt := hin im (List.mem_cons_self im ims)
    unfold check_axis
    rw [size_natCast, size_natCast, hfirst, List.getElem?_eq_getElem hlt]
    simp only
    by_cases hab : a ≠ im.sizes[i]
    · rw [if_pos hab]
    · rw [if_neg hab]
      apply ih (fun x hx => hin x (List.mem_cons_of_mem im hx))
      obtain ⟨x, hx, hne⟩ := h
      rcases List.mem_cons.mp hx with rfl | hx
      · exfalso
        apply hne
        rw [List.getElem?_eq_getElem hlt]
        simp only [ne_eq, not_not] at hab
        rw [hab]
      · exact ⟨x, hx, hne⟩

theorem check_dims_spec (first : Image) (inputs : List Image) (axis : Int) (axes : List Nat)
    (hin : ∀ i, i ∈ axes → (i : Int) ≠ axis →
      i < first.sizes.length ∧ ∀ im, im ∈ inputs → i < im.sizes.length) :
    (check_dims first inputs axis axes = .error (.exception mismatch) ↔
      ∃ i, i ∈ axes ∧ (i : Int) ≠ axis ∧ ∃ im, im ∈ inputs ∧ im.sizes[i]? ≠ first.sizes[i]?) ∧
    (check_dims first inputs axis axes = .ok () ∨
      check_dims first inputs axis axes = .error (.exception mismatch)) := by
  induction axes with
  | nil =>
    constructor
    · constructor
      · intro h
        cases h
      · rintro ⟨i, hi, _⟩
        cases hi
    · exact Or.inl rfl
  | cons i axes ih =>
    obtain ⟨ihiff, ihor⟩ := ih fun j hj => hin j (List.mem_cons_of_mem i hj)
    unfold check_dims
    by_cases hi : (i : Int) ≠ axis
    · obtain ⟨hfl, hall⟩ := hin i (List.mem_cons_self i axes) hi
      have hfirst : first.sizes[i]? = some first.sizes[i] := List.getElem?_eq_getElem hfl
      rw [if_pos hi]
      by_cases hm : ∃ im, im ∈ inputs ∧ im.sizes[i]? ≠ some first.sizes[i]
      · rw [check_axis_mismatch first i _ hfirst inputs hall hm]
        refine ⟨⟨fun _ => ?_, fun _ => rfl⟩, Or.inr rfl⟩
        obtain ⟨im, him, hne⟩ := hm
        exact ⟨i, List.mem_cons_self i axes, hi, im, him, by rw [hfirst]; exact hne⟩
      · have hok : check_axis first i inputs = .ok () := by
          apply check_axis_ok first i _ hfirst
          intro im him
          by_contra hne
          exact hm ⟨im, him, hne⟩
        rw [hok]
        simp only
        refine ⟨⟨fun h => ?_, fun h => ?_⟩, ihor⟩
        · obtain ⟨j, hj, hja, hex⟩ := ihiff.mp h
          exact ⟨j, List.mem_cons_of_mem i hj, hja, hex⟩
        · apply ihiff.mpr
          obtain ⟨j, hj, hja, im, him, hne⟩ := h
          rcases List.mem_cons.mp hj with rfl | hj
          · exfalso
            apply hm
            exact ⟨im, him, by rw [← hfirst]; exact hne⟩
          · exact ⟨j, hj, hja, im, him, hne⟩
    · rw [if_neg hi]
      refine ⟨⟨fun h => ?_, fun h => ?_⟩, ihor⟩
      · obtain ⟨j, hj, hja, hex⟩ := ihiff.mp h
        exact ⟨j, List.mem_cons_of_mem i hj, hja, hex⟩
      · apply ihiff.mpr
        obtain ⟨j, hj, hja, hex⟩ := h
        rcases List.mem_cons.mp hj with rfl | hj
        · exact absurd hja hi
        · exact ⟨j, hj, hja, hex⟩

theorem run_raises_iff (axis_option : Option Nat) (first : Image) (others : List Image)
    (axis ndims : Int) (hchoose : choose_axis axis_option others = .ok (axis, ndims))
    (hin : ∀ i : Nat, (i : Int) < ndims → (i : Int) ≠ axis →
      ∀ im, im ∈ first :: others → i < im.sizes.length) :
    (run axis_option first others = .error (.exception mismatch) ↔
      ∃ i : Nat, (i : Int) < ndims ∧ (i : Int) ≠ axis ∧
        ∃ im, im ∈ others ∧ im.sizes[i]? ≠ first.sizes[i]?) ∧
    ((∃ out, run axis_option first others = .ok out) ∨
      run axis_option first others = .error (.exception mismatch)) := by
  have hspec := check_dims_spec first (first :: others) axis (List.range ndims.toNat)
    (fun i hi hne => by
      have hlt : (i : Int) < ndims := by
        have := List.mem_range.mp hi
        omega
      exact ⟨hin i hlt hne first (List.mem_cons_self _ _), fun im him => hin i hlt hne im him⟩)
  obtain ⟨hiff, hor⟩ := hspec
  unfold run
  simp only [hchoose]
  constructor
  · constructor
    · intro h
      have hc : check_dims first (first :: others) axis (List.range ndims.toNat) =
          .error (.exception mismatch) := by
        rcases hor with hok | herr
        · rw [hok] at h
          cases h
        · exact herr
      obtain ⟨i, hi, hne, im, him, hdiff⟩ := hiff.mp hc
      have hlt : (i : Int) < ndims := by
        have := List.mem_range.mp hi
        omega
      rcases List.mem_cons.mp him with rfl | him
      · exact absurd rfl hdiff
      · exact ⟨i, hlt, hne, im, him, hdiff⟩
    · rintro ⟨i, hlt, hne, im, him, hdiff⟩
      have hi : i ∈ List.range ndims.toNat := by
        apply List.mem_range.mpr
        omega
      rw [hiff.mpr ⟨i, hi, hne, im, List.mem_cons_of_mem _ him, hdiff⟩]
  · rcases hor with hok | herr
    · rw [hok]
      exact Or.inl ⟨_, rfl⟩
    · rw [herr]
      exact Or.inr rfl

/-- Tiling while `axis_offset` does not wrap: whenever `run ()` reaches its
output for input images whose
sizes are all at least 1 and whose extents along the concatenation axis (the
size there, or 1 for an image without that axis) sum to less than 2^31, the
range of the `int` that holds `axis_offset`, the output size along the axis is
that sum, the offset at which the `i`-th image is written is the sum of the
extents of the images before it, and the final offset is the output size.  And
`run ()` reaches its output when all inputs have the same number of axes, every
input after the first has an axis of size above one, and the inputs agree with
the first on every axis, but for the axis given with `-axis`. -/
theorem concatenation_tiles :
    (∀ (axis_option : Option Nat) (first : Image) (others : List Image) (out : Output),
      run axis_option first others = .ok out →
      (∀ im, im ∈ first :: others → ∀ s, s ∈ im.sizes → 1 ≤ s) →
      ((first :: others).map (extent_of out.axis.toNat)).sum < 2147483648 →
      0 ≤ out.axis ∧
      out.header_out[out.axis.toNat]? =
        some ((first :: others).map (extent_of out.axis.toNat)).sum ∧
      out.offsets = (List.range (others.length + 1)).map (fun i =>
        (((first :: others).take i).map (extent_of out.axis.toNat)).sum) ∧
      out.axis_offset = ((first :: others).map (extent_of out.axis.toNat)).sum) ∧
    (∀ (axis_option : Option Nat) (first : Image) (others : List Image),
      0 < first.sizes.length →
      (∀ im, im ∈ others → im.sizes.length = first.sizes.length ∧
        (∃ s, s ∈ im.sizes ∧ 1 < s) ∧
        ∀ i, axis_option ≠ some i → im.sizes[i]? = first.sizes[i]?) →
      ∃ out, run axis_option first others = .ok out) :=
  ⟨run_tiles, run_returns⟩

/-- Tiling at an image of sizes 2x2x2 followed by one of sizes 2x2x2x5:
the output has size 1 + 5 along axis 3, the images are written at the offsets 0
and 1, and the final offset is 6. -/
theorem concatenation_tiles_witness :
    (∀ im, im ∈ [(⟨[2, 2, 2]⟩ : Image), ⟨[2, 2, 2, 5]⟩] → ∀ s, s ∈ im.sizes → 1 ≤ s) ∧
    ∃ out, run none ⟨[2, 2, 2]⟩ [⟨[2, 2, 2, 5]⟩] = .ok out ∧
      out.axis = 3 ∧ out.header_out[3]? = some 6 ∧ out.offsets = [0, 1] ∧
      out.axis_offset = 6 := by
  have hs : ∀ im, im ∈ [(⟨[2, 2, 2]⟩ : Image), ⟨[2, 2, 2, 5]⟩] → ∀ s, s ∈ im.sizes → 1 ≤ s := by
    decide
  have hrun : run none ⟨[2, 2, 2]⟩ [⟨[2, 2, 2, 5]⟩] = .ok ⟨3, [2, 2, 2, 6], [0, 1], 6⟩ := rfl
  obtain ⟨_, h1, h2, h3⟩ := concatenation_tiles.1 none ⟨[2, 2, 2]⟩ [⟨[2, 2, 2, 5]⟩] _ hrun hs
    (by decide)
  exact ⟨hs, _, hrun, rfl, h1, h2, h3⟩

end mrcat

end MRtrix
